import Mathlib

/-!
jukebox: line editor and command dispatcher.

A shallow embedding of `src/jukebox/main.go` and `src/jukebox/format.go`.

* Go strings are byte sequences, so `GoString` is a list of byte values and
  `len(s)` is `List.length`.
* Go's `int` is taken to be 64 bits wide; `wrapInt` is the two's complement
  wrap-around of arithmetic on it.
* A slice expression that is out of range panics in Go; here it yields `none`.
* The remote control client is an oracle that answers every call from the
  history of calls made so far; the history is threaded explicitly.
* lipgloss styles are opaque string transformers carried by `Env`.
-/

namespace Jukebox

/-! ## Go strings and the library routines the program calls -/

/-- A Go string: its bytes, in order. -/
abbrev GoString := List Nat

/-- A Go rune (`int32`). -/
abbrev Rune := Int

/-- UTF-8 bytes of a code point taken as already valid (`utf8.EncodeRune`). -/
def encodeNat (n : Nat) : GoString :=
  if n ≤ 0x7F then [n]
  else if n ≤ 0x7FF then [0xC0 + n / 64, 0x80 + n % 64]
  else if n ≤ 0xFFFF then [0xE0 + n / 4096, 0x80 + n / 64 % 64, 0x80 + n % 64]
  else [0xF0 + n / 262144, 0x80 + n / 4096 % 64, 0x80 + n / 64 % 64, 0x80 + n % 64]

/-- The bytes `string(rune)` produces: the UTF-8 encoding, with U+FFFD standing
in for a rune that is negative, above U+10FFFF or a surrogate. -/
def encodeRune (r : Rune) : GoString :=
  if r < 0 ∨ 0x10FFFF < r ∨ (0xD800 ≤ r ∧ r ≤ 0xDFFF) then encodeNat 0xFFFD
  else encodeNat r.toNat

/-- The conversion `string(rs)` of a rune slice. -/
def runesToString : List Rune → GoString
  | [] => []
  | r :: rs => encodeRune r ++ runesToString rs

/-- The bytes of a string literal of the Go source (source files are UTF-8). -/
def str (s : String) : GoString :=
  runesToString (s.data.map fun c => (c.toNat : Int))

/-- The slice expression `s[lo:hi]`; `none` is the out-of-range panic. -/
def slice (s : GoString) (lo hi : Int) : Option GoString :=
  if 0 ≤ lo ∧ lo ≤ hi ∧ hi ≤ (s.length : Int) then
    some ((s.take hi.toNat).drop lo.toNat)
  else none

/-- The slice expression `s[:hi]`. -/
def sliceTo (s : GoString) (hi : Int) : Option GoString := slice s 0 hi

/-- The slice expression `s[lo:]`. -/
def sliceFrom (s : GoString) (lo : Int) : Option GoString := slice s lo s.length

/-- The index expression `s[i]`; `none` is the out-of-range panic. -/
def index (s : GoString) (i : Int) : Option Nat :=
  if 0 ≤ i ∧ i < (s.length : Int) then s.get? i.toNat else none

/-- Two's complement wrap-around of a 64-bit `int`. -/
def wrapInt (x : Int) : Int := (x + 2 ^ 63) % 2 ^ 64 - 2 ^ 63

/-- Worker of `natDigits`: most significant digit first, `fuel` bounds the number of digits. -/
def digitsAux : Nat → Nat → GoString → GoString
  | 0, _, acc => acc
  | fuel + 1, n, acc =>
    if n < 10 then (48 + n) :: acc
    else digitsAux fuel (n / 10) ((48 + n % 10) :: acc)

/-- Decimal digits of a natural number, as ASCII bytes. -/
def natDigits (n : Nat) : GoString := digitsAux (n + 1) n []

/-- The verb `%d` of `fmt.Sprintf` at an `int`. -/
def fmtD (v : Int) : GoString :=
  if v < 0 then 45 :: natDigits (-v).toNat else natDigits v.toNat

/-- The verb `%02d` of `fmt.Sprintf`: zero padding to width two, the sign counted in the width. -/
def fmtD02 (v : Int) : GoString :=
  if v < 0 then 45 :: natDigits (-v).toNat
  else if v < 10 then 48 :: natDigits v.toNat
  else natDigits v.toNat

/-- Value of a run of ASCII decimal digits, `none` when a byte is not a digit. -/
def parseDigits : GoString → Nat → Option Nat
  | [], acc => some acc
  | c :: cs, acc => if 48 ≤ c ∧ c ≤ 57 then parseDigits cs (acc * 10 + (c - 48)) else none

/-- The unsigned digits of `strconv.Atoi`: at least one digit, nothing else. -/
def parseUnsigned (ds : GoString) : Option Nat :=
  if ds = [] then none else parseDigits ds 0

/-- `strconv.Atoi` on a 64-bit platform: an optional sign and decimal digits whose value
fits `int`. `none` stands for a non-nil error (syntax or range); the program reads the
value only when the error is nil. -/
def Atoi (s : GoString) : Option Int :=
  match s with
  | [] => none
  | c :: rest =>
    if c = 45 then
      match parseUnsigned rest with
      | some n => if n ≤ 2 ^ 63 then some (-(n : Int)) else none
      | none => none
    else
      match parseUnsigned (if c = 43 then rest else s) with
      | some n => if n < 2 ^ 63 then some (n : Int) else none
      | none => none

/-! ### Unicode white space, `strings.TrimSpace`, `strings.Fields`, `strings.ToLower` -/

/-- The constant `utf8.RuneError`. -/
def RuneError : Rune := 0xFFFD

/-- The table `asciiSpace` of package `strings`: tab, line feed, vertical tab, form feed,
carriage return and space. -/
def asciiSpace (c : Nat) : Bool :=
  c = 9 || c = 10 || c = 11 || c = 12 || c = 13 || c = 32

/-- The predicate `unicode.IsSpace`. -/
def IsSpace (r : Rune) : Bool :=
  r = 9 || r = 10 || r = 11 || r = 12 || r = 13 || r = 32 || r = 0x85 || r = 0xA0 ||
  r = 0x1680 || (0x2000 ≤ r && r ≤ 0x200A) || r = 0x2028 || r = 0x2029 || r = 0x202F ||
  r = 0x205F || r = 0x3000

/-- The function `utf8.DecodeRuneInString`: the first rune of `s` and its width in bytes;
`(RuneError, 1)` on an ill-formed sequence and `(RuneError, 0)` on the empty string. -/
def decodeRune (s : GoString) : Rune × Nat :=
  match s with
  | [] => (RuneError, 0)
  | s0 :: t =>
    if s0 < 0x80 then ((s0 : Int), 1)
    else if s0 < 0xC2 ∨ 0xF4 < s0 then (RuneError, 1)
    else
      let sz := if s0 < 0xE0 then 2 else if s0 < 0xF0 then 3 else 4
      let lo := if s0 = 0xE0 then 0xA0 else if s0 = 0xF0 then 0x90 else 0x80
      let hi := if s0 = 0xED then 0x9F else if s0 = 0xF4 then 0x8F else 0xBF
      if s.length < sz then (RuneError, 1)
      else
        match t with
        | [] => (RuneError, 1)
        | s1 :: t1 =>
          if s1 < lo ∨ hi < s1 then (RuneError, 1)
          else if sz ≤ 2 then (((s0 % 32 * 64 + s1 % 64 : Nat) : Int), 2)
          else
            match t1 with
            | [] => (RuneError, 1)
            | s2 :: t2 =>
              if s2 < 0x80 ∨ 0xBF < s2 then (RuneError, 1)
              else if sz ≤ 3 then
                (((s0 % 16 * 4096 + s1 % 64 * 64 + s2 % 64 : Nat) : Int), 3)
              else
                match t2 with
                | [] => (RuneError, 1)
                | s3 :: _ =>
                  if s3 < 0x80 ∨ 0xBF < s3 then (RuneError, 1)
                  else
                    (((s0 % 8 * 262144 + s1 % 64 * 4096 + s2 % 64 * 64 + s3 % 64 : Nat) : Int), 4)

/-- The function `utf8.RuneStart`: the byte is not a continuation byte. -/
def RuneStart (b : Nat) : Bool := !(0x80 ≤ b && b ≤ 0xBF)

/-- The backward scan of `utf8.DecodeLastRuneInString` for the start of the last rune:
`for start--; start >= lim; start-- { if RuneStart(s[start]) { break } }`. -/
def scanBack (s : GoString) (lim : Int) : Nat → Int → Int
  | 0, start => start
  | fuel + 1, start =>
    if lim ≤ start then
      if RuneStart (s.getD start.toNat 0) then start else scanBack s lim fuel (start - 1)
    else start

/-- The function `utf8.DecodeLastRuneInString`: the last rune of `s` and its width. -/
def decodeLastRune (s : GoString) : Rune × Nat :=
  if s.length = 0 then (RuneError, 0)
  else
    let last := s.getD (s.length - 1) 0
    if last < 0x80 then ((last : Int), 1)
    else
      let lim : Int := if (s.length : Int) - 4 < 0 then 0 else (s.length : Int) - 4
      let start0 := scanBack s lim 4 ((s.length : Int) - 2)
      let start := if start0 < 0 then 0 else start0.toNat
      let d := decodeRune (s.drop start)
      if start + d.2 ≠ s.length then (RuneError, 1) else d

/-- Loop of `indexFunc(s, f, truth)`; `i` is the byte offset of `s` in the whole string. -/
def indexFuncAux (f : Rune → Bool) (truth : Bool) : Nat → GoString → Nat → Int
  | 0, _, _ => -1
  | fuel + 1, s, i =>
    match s with
    | [] => -1
    | _ :: _ =>
      let d := decodeRune s
      if f d.1 = truth then (i : Int) else indexFuncAux f truth fuel (s.drop d.2) (i + d.2)

/-- The function `indexFunc` of package `strings`: offset of the first rune `r` with
`f(r) == truth`, or `-1`. Every step consumes a byte, so `len(s)` steps suffice. -/
def indexFunc (f : Rune → Bool) (truth : Bool) (s : GoString) : Int :=
  indexFuncAux f truth s.length s 0

/-- Loop of `lastIndexFunc(s, f, truth)`, `i` being the loop variable. -/
def lastIndexFuncAux (f : Rune → Bool) (truth : Bool) (s : GoString) : Nat → Nat → Int
  | 0, _ => -1
  | fuel + 1, i =>
    if i = 0 then -1
    else
      let d := decodeLastRune (s.take i)
      if f d.1 = truth then ((i - d.2 : Nat) : Int) else lastIndexFuncAux f truth s fuel (i - d.2)

/-- The function `lastIndexFunc` of package `strings`: offset of the last rune `r` with
`f(r) == truth`, or `-1`. -/
def lastIndexFunc (f : Rune → Bool) (truth : Bool) (s : GoString) : Int :=
  lastIndexFuncAux f truth s s.length s.length

/-- The function `strings.TrimLeftFunc`. -/
def TrimLeftFunc (s : GoString) (f : Rune → Bool) : GoString :=
  let i := indexFunc f false s
  if i = -1 then [] else s.drop i.toNat

/-- The function `strings.TrimRightFunc`. -/
def TrimRightFunc (s : GoString) (f : Rune → Bool) : GoString :=
  let i := lastIndexFunc f false s
  if 0 ≤ i ∧ 0x80 ≤ s.getD i.toNat 0 then
    s.take (i.toNat + (decodeRune (s.drop i.toNat)).2)
  else s.take (i + 1).toNat

/-- The function `strings.TrimFunc`. -/
def TrimFunc (s : GoString) (f : Rune → Bool) : GoString :=
  TrimRightFunc (TrimLeftFunc s f) f

/-- Second loop of `strings.TrimSpace`, run on the reversed remainder: drops ASCII space
from the end and hands over to `TrimRightFunc` at the first non-ASCII byte. -/
def trimSpaceEnd : GoString → GoString
  | [] => []
  | c :: rev =>
    if 0x80 ≤ c then TrimRightFunc (c :: rev).reverse IsSpace
    else if asciiSpace c then trimSpaceEnd rev
    else (c :: rev).reverse

/-- The function `strings.TrimSpace`: ASCII fast path from both ends, `TrimFunc` with
`unicode.IsSpace` from the first non-ASCII byte on. -/
def TrimSpace : GoString → GoString
  | [] => []
  | c :: s =>
    if 0x80 ≤ c then TrimFunc (c :: s) IsSpace
    else if asciiSpace c then TrimSpace s
    else trimSpaceEnd (c :: s).reverse

/-- Closes the field being collected, if there is one. -/
def closeField (cur : Option GoString) (rest : List GoString) : List GoString :=
  match cur with
  | some w => w :: rest
  | none => rest

/-- ASCII fast path of `strings.Fields`: the maximal runs of bytes outside `asciiSpace`.
`cur` is the field being collected. -/
def fieldsASCII : GoString → Option GoString → List GoString
  | [], cur => closeField cur []
  | c :: cs, cur =>
    if asciiSpace c then closeField cur (fieldsASCII cs none)
    else fieldsASCII cs (some (cur.getD [] ++ [c]))

/-- Loop of `strings.FieldsFunc(s, f)`: ranges over the runes of `s`, an ill-formed byte
counting as `RuneError`; `cur` is the field being collected. -/
def fieldsFuncAux (f : Rune → Bool) : Nat → GoString → Option GoString → List GoString
  | 0, _, cur => closeField cur []
  | fuel + 1, s, cur =>
    match s with
    | [] => closeField cur []
    | _ :: _ =>
      let d := decodeRune s
      if f d.1 then closeField cur (fieldsFuncAux f fuel (s.drop d.2) none)
      else fieldsFuncAux f fuel (s.drop d.2) (some (cur.getD [] ++ s.take d.2))

/-- The function `strings.FieldsFunc`. Every step consumes a byte, so `len(s)` steps suffice. -/
def FieldsFunc (s : GoString) (f : Rune → Bool) : List GoString :=
  fieldsFuncAux f s.length s none

/-- The function `strings.Fields`: splits around runs of white space; the ASCII fast path
when every byte is below `utf8.RuneSelf`, `FieldsFunc` with `unicode.IsSpace` otherwise. -/
def Fields (s : GoString) : List GoString :=
  if s.all (fun c => decide (c < 0x80)) then fieldsASCII s none
  else FieldsFunc s IsSpace

/-- ASCII lower-casing of one byte. -/
def lowerByte (c : Nat) : Nat := if 65 ≤ c ∧ c ≤ 90 then c + 32 else c

/-- The function `strings.ToLower`. On an ASCII-only string the upper-case letters are
shifted; otherwise the result is `strings.Map(unicode.ToLower, s)`, whose case tables are
not modelled and which is taken as the parameter `mapLower`. -/
def ToLower (mapLower : GoString → GoString) (s : GoString) : GoString :=
  if s.all (fun c => decide (c < 0x80)) then s.map lowerByte else mapLower s

/-- The function `strings.Join`. -/
def Join : List GoString → GoString → GoString
  | [], _ => []
  | [a], _ => a
  | a :: b :: rest, sep => a ++ sep ++ Join (b :: rest) sep

/-! ## Data model -/

/-- The lipgloss styles of `format.go`, `helpText` and `View`, each taken as the string
transformer its `Render` is, and the non-ASCII branch of `strings.ToLower`. -/
structure Env where
  trackStyle : GoString → GoString
  albumStyle : GoString → GoString
  playStyle : GoString → GoString
  pauseStyle : GoString → GoString
  errorStyle : GoString → GoString
  promptStyle : GoString → GoString
  /-- The style built in `helpText`: bold, colour 212. -/
  helpHeaderStyle : GoString → GoString
  /-- The style built in `View`: reverse video. -/
  reverseStyle : GoString → GoString
  /-- What `strings.Map(unicode.ToLower, s)` returns. -/
  mapLower : GoString → GoString

/-- Struct `Track` of `api.go`. -/
structure Track where
  URI : GoString
  Name : GoString
  ArtistNames : List GoString
  AlbumName : GoString
  AlbumCoverURL : GoString
  Position : Int
  Duration : Int

/-- Struct `Status` of `api.go`; `Track` is the nilable pointer. -/
structure Status where
  Stopped : Bool
  Paused : Bool
  Buffering : Bool
  Volume : Int
  VolumeSteps : Int
  ShuffleContext : Bool
  Track : Option Track

/-- One call on the remote control client (a method of `*Client` with its argument). -/
inductive Call where
  | Status
  | Play (uri : GoString)
  | PlayPause
  | Next
  | Prev
  | Volume (vol : Int)
  | Seek (ms : Int)
  | Shuffle (enabled : Bool)
  | Queue (uri : GoString)
  deriving DecidableEq, Repr

/-- The remote control client seen from the dispatcher. Each answer may depend on the
calls made before it (`hist`, oldest first). `status` answers `Client.Status`: a snapshot
or the message of the error. `post` answers the other methods: `none` for a nil error,
otherwise the message of the error. -/
structure Client where
  status : List Call → Except GoString Status
  post : List Call → Call → Option GoString

/-- Struct `model` of `main.go`, without the `client` pointer, which never changes and is
passed alongside. -/
structure Model where
  input : GoString
  cursor : Int
  output : GoString
  quitting : Bool
  deriving DecidableEq, Repr

/-- The key types `Update` tells apart; `Other` is any other `tea.KeyType`. -/
inductive KeyType where
  | CtrlC | Enter | Backspace | Left | Right | CtrlA | CtrlE | CtrlU | CtrlK | Runes
  | Other (code : Int)
  deriving DecidableEq, Repr

/-- A `tea.Msg`: a `tea.KeyMsg` with its `Type` and `Runes`, or a message of another type. -/
inductive Msg where
  | Key (type : KeyType) (runes : List Rune)
  | Other
  deriving DecidableEq, Repr

/-- A `tea.Cmd` as `Update` returns it: `nil` or `tea.Quit`. -/
inductive Cmd where
  | nil | Quit
  deriving DecidableEq, Repr

/-! ## format.go -/

/-- Function `FormatTime`: `ms / 1000` split into minutes and seconds, printed with
`"%d:%02d"`. Go's `/` and `%` truncate toward zero. -/
def FormatTime (ms : Int) : GoString :=
  let total := Int.tdiv ms 1000
  let m := Int.tdiv total 60
  let s := Int.tmod total 60
  fmtD m ++ str ":" ++ fmtD02 s

/-- Function `FormatStatus`. -/
def FormatStatus (env : Env) (s : Status) : GoString :=
  match s.Stopped, s.Track with
  | true, _ => str "♫ Ready (nothing playing)"
  | false, none => str "♫ Ready (nothing playing)"
  | false, some t =>
    let artist := Join t.ArtistNames (str ", ")
    let title := env.trackStyle (str "♫ " ++ artist ++ str " — " ++ t.Name)
    let album := env.albumStyle (str "  " ++ t.AlbumName)
    let pos := FormatTime t.Position
    let dur := FormatTime t.Duration
    let state :=
      if s.Paused then env.pauseStyle (str "⏸ paused") else env.playStyle (str "▶ playing")
    let info := str "  " ++ pos ++ str " / " ++ dur ++ str "  " ++ state
    title ++ str "\n" ++ album ++ str "\n" ++ info

/-! ## main.go -/

/-- Function `helpText`. -/
def helpText (env : Env) : GoString :=
  let header := env.helpHeaderStyle (str "spotify-jukebox commands")
  let cmds :=
    str "\n  status, s        Show current track" ++
    str "\n  play <uri>       Play a Spotify URI" ++
    str "\n  pause, pp        Toggle play/pause" ++
    str "\n  next, n          Next track" ++
    str "\n  prev, p          Previous track" ++
    str "\n  vol <0-100>      Set volume" ++
    str "\n  seek <seconds>   Seek to position" ++
    str "\n  shuffle          Toggle shuffle" ++
    str "\n  queue <uri>      Add track to queue" ++
    str "\n  help, h          Show this help" ++
    str "\n  quit, q          Exit"
  header ++ cmds

/-- What `execute` returns and does: the result string, the receiver after the call
(`execute` has a pointer receiver) and the calls it made on the client, in order. -/
structure ExecResult where
  out : GoString
  m : Model
  calls : List Call
  deriving DecidableEq

/-- The common shape of the branches of `execute` that make one `post` call `c` on the
client: the rendered error when the call fails, `ok` otherwise. -/
def postThen (env : Env) (cl : Client) (hist : List Call) (m : Model) (c : Call)
    (ok : GoString) : ExecResult :=
  match cl.post hist c with
  | some e => ⟨env.errorStyle (str "Error: " ++ e), m, [c]⟩
  | none => ⟨ok, m, [c]⟩

/-- Body of `case "status", "s"` of `execute`. -/
def cmdStatus (env : Env) (cl : Client) (hist : List Call) (m : Model) : ExecResult :=
  match cl.status hist with
  | .error e => ⟨env.errorStyle (str "Error: " ++ e), m, [Call.Status]⟩
  | .ok s => ⟨FormatStatus env s, m, [Call.Status]⟩

/-- Body of `case "play"` of `execute`. -/
def cmdPlay (env : Env) (cl : Client) (hist : List Call) (m : Model) (args : List GoString) :
    ExecResult :=
  match args with
  | [] => ⟨env.errorStyle (str "Usage: play <spotify-uri>"), m, []⟩
  | a :: _ => postThen env cl hist m (Call.Play a) (env.playStyle (str "▶ Playing"))

/-- Body of `case "vol"` of `execute`. -/
def cmdVol (env : Env) (cl : Client) (hist : List Call) (m : Model) (args : List GoString) :
    ExecResult :=
  match args with
  | [] => ⟨env.errorStyle (str "Usage: vol <0-100>"), m, []⟩
  | a :: _ =>
    match Atoi a with
    | none => ⟨env.errorStyle (str "Volume must be 0-100"), m, []⟩
    | some v =>
      if v < 0 ∨ v > 100 then ⟨env.errorStyle (str "Volume must be 0-100"), m, []⟩
      else postThen env cl hist m (Call.Volume v) (str "🔊 Volume: " ++ fmtD v ++ str "%")

/-- Body of `case "seek"` of `execute`; `secs * 1000` is a product of 64-bit `int`s. -/
def cmdSeek (env : Env) (cl : Client) (hist : List Call) (m : Model) (args : List GoString) :
    ExecResult :=
  match args with
  | [] => ⟨env.errorStyle (str "Usage: seek <seconds>"), m, []⟩
  | a :: _ =>
    match Atoi a with
    | none =>
      ⟨env.errorStyle (str "Seek position must be a positive number of seconds"), m, []⟩
    | some secs =>
      if secs < 0 then
        ⟨env.errorStyle (str "Seek position must be a positive number of seconds"), m, []⟩
      else
        postThen env cl hist m (Call.Seek (wrapInt (secs * 1000)))
          (str "⏩ Seeked to " ++ FormatTime (wrapInt (secs * 1000)))

/-- Body of `case "shuffle"` of `execute`. -/
def cmdShuffle (env : Env) (cl : Client) (hist : List Call) (m : Model) : ExecResult :=
  match cl.status hist with
  | .error e => ⟨env.errorStyle (str "Error: " ++ e), m, [Call.Status]⟩
  | .ok s =>
    match cl.post (hist ++ [Call.Status]) (Call.Shuffle (!s.ShuffleContext)) with
    | some e =>
      ⟨env.errorStyle (str "Error: " ++ e), m, [Call.Status, Call.Shuffle (!s.ShuffleContext)]⟩
    | none =>
      ⟨if s.ShuffleContext then str "🔀 Shuffle off" else str "🔀 Shuffle on", m,
        [Call.Status, Call.Shuffle (!s.ShuffleContext)]⟩

/-- Body of `case "queue"` of `execute`. -/
def cmdQueue (env : Env) (cl : Client) (hist : List Call) (m : Model) (args : List GoString) :
    ExecResult :=
  match args with
  | [] => ⟨env.errorStyle (str "Usage: queue <spotify-uri>"), m, []⟩
  | a :: _ => postThen env cl hist m (Call.Queue a) (str "📋 Added to queue")

/-- The `switch cmd` of `execute`: the cases in source order. -/
def dispatch (env : Env) (cl : Client) (hist : List Call) (m : Model) (cmd : GoString)
    (args : List GoString) : ExecResult :=
  if cmd = str "status" ∨ cmd = str "s" then cmdStatus env cl hist m
  else if cmd = str "play" then cmdPlay env cl hist m args
  else if cmd = str "pause" ∨ cmd = str "pp" then
    postThen env cl hist m Call.PlayPause (str "⏯ Toggled play/pause")
  else if cmd = str "next" ∨ cmd = str "n" then
    postThen env cl hist m Call.Next (str "⏭ Next track")
  else if cmd = str "prev" ∨ cmd = str "p" then
    postThen env cl hist m Call.Prev (str "⏮ Previous track")
  else if cmd = str "vol" then cmdVol env cl hist m args
  else if cmd = str "seek" then cmdSeek env cl hist m args
  else if cmd = str "shuffle" then cmdShuffle env cl hist m
  else if cmd = str "queue" then cmdQueue env cl hist m args
  else if cmd = str "help" ∨ cmd = str "h" then ⟨helpText env, m, []⟩
  else if cmd = str "quit" ∨ cmd = str "q" then ⟨str "Bye!", { m with quitting := true }, []⟩
  else
    ⟨env.errorStyle (str "Unknown command: " ++ cmd ++ str " (type 'help' for commands)"),
      m, []⟩

/-- Method `model.execute`. `hist` is the history of client calls before this dispatch. -/
def execute (env : Env) (cl : Client) (hist : List Call) (m : Model) (input : GoString) :
    ExecResult :=
  match Fields input with
  | [] => ⟨[], m, []⟩
  | p0 :: args => dispatch env cl hist m (ToLower env.mapLower p0) args

/-- What a call of `Update` yields: the returned model and command, the history of client
calls after it, and `emitted`, the line passed to `m.execute` when the call ran it. -/
structure UpdateResult where
  m : Model
  cmd : Cmd
  log : List Call
  emitted : Option GoString
  deriving DecidableEq

/-- Method `model.Update`. `log` is the history of client calls so far. The result is
`none` when a slice expression panics. -/
def Update (env : Env) (cl : Client) (log : List Call) (m : Model) (msg : Msg) :
    Option UpdateResult :=
  match msg with
  | Msg.Other => some ⟨m, Cmd.nil, log, none⟩
  | Msg.Key type runes =>
    match type with
    | KeyType.CtrlC => some ⟨{ m with quitting := true }, Cmd.Quit, log, none⟩
    | KeyType.Enter =>
      let cmd := TrimSpace m.input
      let m1 : Model := { m with input := [], cursor := 0 }
      if cmd = [] then some ⟨m1, Cmd.nil, log, none⟩
      else
        let r := execute env cl log m1 cmd
        let m2 : Model := { r.m with output := r.out }
        some ⟨m2, if m2.quitting then Cmd.Quit else Cmd.nil, log ++ r.calls, some cmd⟩
    | KeyType.Backspace =>
      if m.cursor > 0 then
        match sliceTo m.input (m.cursor - 1), sliceFrom m.input m.cursor with
        | some a, some b =>
          some ⟨{ m with input := a ++ b, cursor := m.cursor - 1 }, Cmd.nil, log, none⟩
        | _, _ => none
      else some ⟨m, Cmd.nil, log, none⟩
    | KeyType.Left =>
      if m.cursor > 0 then some ⟨{ m with cursor := m.cursor - 1 }, Cmd.nil, log, none⟩
      else some ⟨m, Cmd.nil, log, none⟩
    | KeyType.Right =>
      if m.cursor < (m.input.length : Int) then
        some ⟨{ m with cursor := m.cursor + 1 }, Cmd.nil, log, none⟩
      else some ⟨m, Cmd.nil, log, none⟩
    | KeyType.CtrlA => some ⟨{ m with cursor := 0 }, Cmd.nil, log, none⟩
    | KeyType.CtrlE => some ⟨{ m with cursor := (m.input.length : Int) }, Cmd.nil, log, none⟩
    | KeyType.CtrlU =>
      match sliceFrom m.input m.cursor with
      | some b => some ⟨{ m with input := b, cursor := 0 }, Cmd.nil, log, none⟩
      | none => none
    | KeyType.CtrlK =>
      match sliceTo m.input m.cursor with
      | some a => some ⟨{ m with input := a }, Cmd.nil, log, none⟩
      | none => none
    | KeyType.Runes =>
      let ch := runesToString runes
      match sliceTo m.input m.cursor, sliceFrom m.input m.cursor with
      | some a, some b =>
        some ⟨{ m with input := a ++ ch ++ b, cursor := m.cursor + (ch.length : Int) },
          Cmd.nil, log, none⟩
      | _, _ => none
    | KeyType.Other _ => some ⟨m, Cmd.nil, log, none⟩

/-- The calls of `Update` on a sequence of messages, oldest first, each call starting from
the model and history the previous one left; the final model and history. -/
def UpdateAll (env : Env) (cl : Client) :
    List Call → Model → List Msg → Option (Model × List Call)
  | log, m, [] => some (m, log)
  | log, m, msg :: rest =>
    match Update env cl log m msg with
    | some r => UpdateAll env cl r.log r.m rest
    | none => none

/-- Method `model.View`; `none` when a slice or index expression panics. -/
def View (env : Env) (m : Model) : Option GoString :=
  if m.quitting then some []
  else
    let s0 : GoString := if m.output ≠ [] then m.output ++ str "\n\n" else []
    let s1 := s0 ++ env.promptStyle (str "jukebox> ")
    if m.cursor < (m.input.length : Int) then
      match sliceTo m.input m.cursor, index m.input m.cursor, sliceFrom m.input (m.cursor + 1) with
      | some a, some c, some b => some (s1 ++ a ++ env.reverseStyle (encodeRune (c : Int)) ++ b)
      | _, _, _ => none
    else some (s1 ++ m.input ++ env.reverseStyle (str " "))

/-- The cursor invariant of the input buffer: `0 ≤ cursor ≤ len(input)`. -/
def Valid (m : Model) : Prop := 0 ≤ m.cursor ∧ m.cursor ≤ (m.input.length : Int)

instance (m : Model) : Decidable (Valid m) := by unfold Valid; infer_instance

/-- An environment whose styles render their argument unchanged (no colour profile). -/
def plainEnv : Env := ⟨id, id, id, id, id, id, id, id, id⟩

/-- A client that cannot reach the remote and fails every call with the same message. -/
def downClient : Client := ⟨fun _ => Except.error (str "down"), fun _ _ => some (str "down")⟩

/-- A client whose `post` calls all succeed and whose `Status` reports a stopped player. -/
def okClient : Client :=
  ⟨fun _ => Except.ok ⟨true, false, false, 0, 0, false, none⟩, fun _ _ => none⟩

/-- The error, if any, with which the client answers the call `c` made after the calls
`h`: the error of `Client.Status` for a status fetch, the error of the `post` otherwise. -/
def replyError (cl : Client) (h : List Call) (c : Call) : Option GoString :=
  match c with
  | Call.Status =>
    match cl.status h with
    | .error e => some e
    | .ok _ => none
  | c => cl.post h c

/-- The command names and aliases of the `switch` in `execute`, in source order. -/
def commandNames : List GoString :=
  [str "status", str "s", str "play", str "pause", str "pp", str "next", str "n",
    str "prev", str "p", str "vol", str "seek", str "shuffle", str "queue", str "help",
    str "h", str "quit", str "q"]

/-- The decimal numeral of a natural number, as the spec has it: its base-10 digits, most
significant first, in ASCII; `"0"` for zero. -/
def decimal (n : Nat) : GoString :=
  if n = 0 then [48] else (Nat.digits 10 n).reverse.map (48 + ·)

/-- A result of `execute` surfaces the errors of the client: whenever one of the calls
it made was answered with an error `e`, that call was the last one, the result string is
`"Error: "` followed by `e` in the error style, and the model is the one `execute` was
given. -/
def SurfacesErrors (env : Env) (cl : Client) (hist : List Call) (m : Model)
    (r : ExecResult) : Prop :=
  ∀ (cs : List Call) (c : Call) (rest : List Call) (e : GoString),
    r.calls = cs ++ c :: rest → replyError cl (hist ++ cs) c = some e →
      r.out = env.errorStyle (str "Error: " ++ e) ∧ r.m = m ∧ rest = []

/-- The validation failures of the command table: a missing argument of `play`, `queue`,
`vol` or `seek`; a first argument of `vol` that is not an integer or lies outside
`[0,100]`; a first argument of `seek` that is not an integer or is negative. -/
def ValidationFails (cmd : GoString) (args : List GoString) : Prop :=
  (args = [] ∧ (cmd = str "play" ∨ cmd = str "queue" ∨ cmd = str "vol" ∨ cmd = str "seek")) ∨
  (∃ a rest, args = a :: rest ∧ cmd = str "vol" ∧
    (Atoi a = none ∨ ∃ v, Atoi a = some v ∧ (v < 0 ∨ 100 < v))) ∨
  (∃ a rest, args = a :: rest ∧ cmd = str "seek" ∧
    (Atoi a = none ∨ ∃ v, Atoi a = some v ∧ v < 0))

/-- The multi-byte branch of `decodeRune` for a lead byte `s0` followed by `t`, with the
length `sz` and the accepted range `lo..hi` of the second byte given. -/
def decodeTail (s0 sz lo hi : Nat) (t : GoString) : Rune × Nat :=
  if (s0 :: t).length < sz then (RuneError, 1)
  else
    match t with
    | [] => (RuneError, 1)
    | s1 :: t1 =>
      if s1 < lo ∨ hi < s1 then (RuneError, 1)
      else if sz ≤ 2 then (((s0 % 32 * 64 + s1 % 64 : Nat) : Int), 2)
      else
        match t1 with
        | [] => (RuneError, 1)
        | s2 :: t2 =>
          if s2 < 0x80 ∨ 0xBF < s2 then (RuneError, 1)
          else if sz ≤ 3 then
            (((s0 % 16 * 4096 + s1 % 64 * 64 + s2 % 64 : Nat) : Int), 3)
          else
            match t2 with
            | [] => (RuneError, 1)
            | s3 :: _ =>
              if s3 < 0x80 ∨ 0xBF < s3 then (RuneError, 1)
              else
                (((s0 % 8 * 262144 + s1 % 64 * 4096 + s2 % 64 * 64 + s3 % 64 : Nat) : Int), 4)

/-- The string is empty or begins with a byte that is not a UTF-8 continuation byte. -/
def StartsAtRune (z : GoString) : Prop :=
  ∀ z0 zs, z = z0 :: zs → ¬ (0x80 ≤ z0 ∧ z0 ≤ 0xBF)

/-- The string is exactly the encoding of one white space rune: `decodeRune` consumes
all of it and yields a rune in `unicode.IsSpace`. -/
def SpaceChunk (z : GoString) : Prop :=
  z ≠ [] ∧ IsSpace (decodeRune z).1 = true ∧ (decodeRune z).2 = z.length

/-- The fields of `s` as `strings.FieldsFunc(s, unicode.IsSpace)` collects them, started
with `cur` as the field being collected. -/
def spaceFields (s : GoString) (cur : Option GoString) : List GoString :=
  fieldsFuncAux IsSpace s.length s cur

/-- The slice `strings.TrimRightFunc` returns once `lastIndexFunc` has answered `i`. -/
def trimRightAt (s : GoString) (i : Int) : GoString :=
  if 0 ≤ i ∧ 0x80 ≤ s.getD i.toNat 0 then
    s.take (i.toNat + (decodeRune (s.drop i.toNat)).2)
  else s.take (i + 1).toNat

/-! ## Slices under the cursor invariant -/

theorem sliceTo_of_le (s : GoString) (c : Int) (h0 : 0 ≤ c) (h1 : c ≤ (s.length : Int)) :
    sliceTo s c = some (s.take c.toNat) := by
  unfold sliceTo slice
  rw [if_pos ⟨le_refl 0, h0, h1⟩]
  simp

theorem sliceFrom_of_le (s : GoString) (c : Int) (h0 : 0 ≤ c) (h1 : c ≤ (s.length : Int)) :
    sliceFrom s c = some (s.drop c.toNat) := by
  unfold sliceFrom slice
  rw [if_pos ⟨h0, h1, le_refl _⟩]
  simp

theorem length_take_of_le (s : GoString) (c : Int) (h0 : 0 ≤ c) (h1 : c ≤ (s.length : Int)) :
    ((s.take c.toNat).length : Int) = c := by
  rw [List.length_take]
  omega

theorem postThen_m (env : Env) (cl : Client) (hist : List Call) (m : Model) (c : Call)
    (ok : GoString) : (postThen env cl hist m c ok).m = m := by
  unfold postThen
  split <;> rfl

theorem cmdStatus_m (env : Env) (cl : Client) (hist : List Call) (m : Model) :
    (cmdStatus env cl hist m).m = m := by
  unfold cmdStatus
  split <;> rfl

theorem cmdPlay_m (env : Env) (cl : Client) (hist : List Call) (m : Model)
    (args : List GoString) : (cmdPlay env cl hist m args).m = m := by
  unfold cmdPlay
  split
  · rfl
  · exact postThen_m ..

theorem cmdVol_m (env : Env) (cl : Client) (hist : List Call) (m : Model)
    (args : List GoString) : (cmdVol env cl hist m args).m = m := by
  unfold cmdVol
  split
  · rfl
  · split
    · rfl
    · split
      · rfl
      · exact postThen_m ..

theorem cmdSeek_m (env : Env) (cl : Client) (hist : List Call) (m : Model)
    (args : List GoString) : (cmdSeek env cl hist m args).m = m := by
  unfold cmdSeek
  split
  · rfl
  · split
    · rfl
    · split
      · rfl
      · exact postThen_m ..

theorem cmdShuffle_m (env : Env) (cl : Client) (hist : List Call) (m : Model) :
    (cmdShuffle env cl hist m).m = m := by
  unfold cmdShuffle
  split
  · rfl
  · split <;> rfl

theorem cmdQueue_m (env : Env) (cl : Client) (hist : List Call) (m : Model)
    (args : List GoString) : (cmdQueue env cl hist m args).m = m := by
  unfold cmdQueue
  split
  · rfl
  · exact postThen_m ..

/-- The receiver after the `switch` is the receiver before it, except that `quitting` may
have been set. -/
theorem dispatch_model (env : Env) (cl : Client) (hist : List Call) (m : Model)
    (cmd : GoString) (args : List GoString) :
    (dispatch env cl hist m cmd args).m = m ∨
      (dispatch env cl hist m cmd args).m = { m with quitting := true } := by
  unfold dispatch
  by_cases h1 : cmd = str "status" ∨ cmd = str "s"
  · rw [if_pos h1]; exact Or.inl (cmdStatus_m ..)
  rw [if_neg h1]
  by_cases h2 : cmd = str "play"
  · rw [if_pos h2]; exact Or.inl (cmdPlay_m ..)
  rw [if_neg h2]
  by_cases h3 : cmd = str "pause" ∨ cmd = str "pp"
  · rw [if_pos h3]; exact Or.inl (postThen_m ..)
  rw [if_neg h3]
  by_cases h4 : cmd = str "next" ∨ cmd = str "n"
  · rw [if_pos h4]; exact Or.inl (postThen_m ..)
  rw [if_neg h4]
  by_cases h5 : cmd = str "prev" ∨ cmd = str "p"
  · rw [if_pos h5]; exact Or.inl (postThen_m ..)
  rw [if_neg h5]
  by_cases h6 : cmd = str "vol"
  · rw [if_pos h6]; exact Or.inl (cmdVol_m ..)
  rw [if_neg h6]
  by_cases h7 : cmd = str "seek"
  · rw [if_pos h7]; exact Or.inl (cmdSeek_m ..)
  rw [if_neg h7]
  by_cases h8 : cmd = str "shuffle"
  · rw [if_pos h8]; exact Or.inl (cmdShuffle_m ..)
  rw [if_neg h8]
  by_cases h9 : cmd = str "queue"
  · rw [if_pos h9]; exact Or.inl (cmdQueue_m ..)
  rw [if_neg h9]
  by_cases h10 : cmd = str "help" ∨ cmd = str "h"
  · rw [if_pos h10]; exact Or.inl rfl
  rw [if_neg h10]
  by_cases h11 : cmd = str "quit" ∨ cmd = str "q"
  · rw [if_pos h11]; exact Or.inr rfl
  rw [if_neg h11]
  exact Or.inl rfl

/-- The receiver after `execute` is the receiver before it, except that `quitting` may
have been set. -/
theorem execute_model (env : Env) (cl : Client) (hist : List Call) (m : Model)
    (line : GoString) :
    (execute env cl hist m line).m = m ∨
      (execute env cl hist m line).m = { m with quitting := true } := by
  unfold execute
  split
  · exact Or.inl rfl
  · exact dispatch_model ..

theorem execute_input (env : Env) (cl : Client) (hist : List Call) (m : Model)
    (line : GoString) : (execute env cl hist m line).m.input = m.input := by
  rcases execute_model env cl hist m line with h | h <;> rw [h]

theorem execute_cursor (env : Env) (cl : Client) (hist : List Call) (m : Model)
    (line : GoString) : (execute env cl hist m line).m.cursor = m.cursor := by
  rcases execute_model env cl hist m line with h | h <;> rw [h]

/-! ## The line editor -/

/-- C1. The cursor invariant is preserved: from a model with `0 ≤ cursor ≤ len(input)`,
`Update` returns on every message (every key type, rune insertion, and every non-key
message) and the model it returns again has `0 ≤ cursor ≤ len(input)`. -/
theorem Update_preserves_Valid (env : Env) (cl : Client) (log : List Call) (m : Model)
    (msg : Msg) (h : Valid m) :
    ∃ r, Update env cl log m msg = some r ∧ Valid r.m := by
  obtain ⟨h0, h1⟩ := h
  have hto := sliceTo_of_le m.input m.cursor h0 h1
  have hfrom := sliceFrom_of_le m.input m.cursor h0 h1
  cases msg with
  | Other => exact ⟨_, rfl, h0, h1⟩
  | Key type runes =>
    cases type with
    | CtrlC => exact ⟨_, rfl, h0, h1⟩
    | Enter =>
      unfold Update
      simp only
      split
      · exact ⟨_, rfl, by simp [Valid]⟩
      · refine ⟨_, rfl, ?_⟩
        simp [Valid, execute_input, execute_cursor]
    | Backspace =>
      unfold Update
      simp only
      split
      · rename_i hpos
        have hto1 := sliceTo_of_le m.input (m.cursor - 1) (by omega) (by omega)
        rw [hto1, hfrom]
        refine ⟨_, rfl, ?_⟩
        simp only [Valid, List.length_append, List.length_take, List.length_drop]
        omega
      · exact ⟨_, rfl, h0, h1⟩
    | Left =>
      unfold Update
      simp only
      split
      · refine ⟨_, rfl, ?_⟩
        simp only [Valid]
        omega
      · exact ⟨_, rfl, h0, h1⟩
    | Right =>
      unfold Update
      simp only
      split
      · refine ⟨_, rfl, ?_⟩
        simp only [Valid]
        omega
      · exact ⟨_, rfl, h0, h1⟩
    | CtrlA => exact ⟨_, rfl, by simp [Valid]⟩
    | CtrlE => exact ⟨_, rfl, by simp [Valid]⟩
    | CtrlU =>
      unfold Update
      simp only
      rw [hfrom]
      exact ⟨_, rfl, by simp [Valid]⟩
    | CtrlK =>
      unfold Update
      simp only
      rw [hto]
      refine ⟨_, rfl, ?_⟩
      simp only [Valid, List.length_take]
      omega
    | Runes =>
      unfold Update
      simp only
      rw [hto, hfrom]
      refine ⟨_, rfl, ?_⟩
      simp only [Valid, List.length_append, List.length_take, List.length_drop]
      omega
    | Other code => exact ⟨_, rfl, h0, h1⟩

/-- Witness of C1: the buffer `"ab"` with the cursor at 1, a rune key inserting `é`. -/
theorem Update_preserves_Valid_witness :
    Valid ⟨str "ab", 1, [], false⟩ ∧
      ∃ r, Update plainEnv okClient [] ⟨str "ab", 1, [], false⟩ (Msg.Key KeyType.Runes [233])
        = some r ∧ Valid r.m :=
  ⟨by decide, Update_preserves_Valid plainEnv okClient [] ⟨str "ab", 1, [], false⟩
    (Msg.Key KeyType.Runes [233]) (by decide)⟩

/-- C2, as stated, fails: on the buffer of three spaces with the cursor at 3, which is
blank and valid, `Update` on Enter returns the empty input and cursor 0, not the buffer
it was given. -/
theorem Enter_blank_resets_buffer :
    TrimSpace (str "   ") = [] ∧ Valid ⟨str "   ", 3, [], false⟩ ∧
      Update plainEnv okClient [] ⟨str "   ", 3, [], false⟩ (Msg.Key KeyType.Enter [])
        = some ⟨⟨[], 0, [], false⟩, Cmd.nil, [], none⟩ ∧
      ([] : GoString) ≠ str "   " ∧ (0 : Int) ≠ 3 := by
  decide

/-- C2, amended. On a buffer that is blank after trimming, `Update` on Enter runs no
dispatch (no line is emitted, no client call is made, `output` and `quitting` stay as
they were, the command is nil) and resets `input` to the empty string and `cursor` to 0. -/
theorem Enter_blank (env : Env) (cl : Client) (log : List Call) (m : Model)
    (runes : List Rune) (h : TrimSpace m.input = []) :
    Update env cl log m (Msg.Key KeyType.Enter runes)
      = some ⟨⟨[], 0, m.output, m.quitting⟩, Cmd.nil, log, none⟩ := by
  unfold Update
  simp only
  rw [if_pos h]

/-- Witness of C2, amended: three spaces, cursor at 1, a previous output on screen. -/
theorem Enter_blank_witness :
    TrimSpace (str "   ") = [] ∧
      Update plainEnv downClient [Call.Next] ⟨str "   ", 1, str "Bye!", false⟩
          (Msg.Key KeyType.Enter [])
        = some ⟨⟨[], 0, str "Bye!", false⟩, Cmd.nil, [Call.Next], none⟩ :=
  ⟨by decide, Enter_blank plainEnv downClient [Call.Next] ⟨str "   ", 1, str "Bye!", false⟩ []
    (by decide)⟩

/-- C3, as stated, fails: on the buffer `"  vol 50  "` the line `Update` hands to
`execute` on Enter is `"vol 50"`, the input without its leading and trailing white
space, not the input verbatim. -/
theorem Enter_emits_trimmed_line :
    TrimSpace (str "  vol 50  ") ≠ [] ∧
      (Update plainEnv okClient [] ⟨str "  vol 50  ", 10, [], false⟩
          (Msg.Key KeyType.Enter [])).map (fun r => r.emitted) = some (some (str "vol 50")) ∧
      str "vol 50" ≠ str "  vol 50  " := by
  decide

/-- C3, amended. On a buffer that is not blank, `Update` on Enter hands the input with
its leading and trailing white space trimmed to `execute`, stores the result of `execute`
in `output`, records the client calls `execute` made, takes over the `quitting` flag it
left, returns `tea.Quit` exactly when that flag is set, and leaves `input` empty and
`cursor` 0. -/
theorem Enter_nonblank (env : Env) (cl : Client) (log : List Call) (m : Model)
    (runes : List Rune) (h : TrimSpace m.input ≠ []) :
    ∃ r, Update env cl log m (Msg.Key KeyType.Enter runes) = some r ∧
      r.emitted = some (TrimSpace m.input) ∧
      r.m.output = (execute env cl log ⟨[], 0, m.output, m.quitting⟩ (TrimSpace m.input)).out ∧
      r.log = log ++ (execute env cl log ⟨[], 0, m.output, m.quitting⟩ (TrimSpace m.input)).calls ∧
      r.m.quitting
        = (execute env cl log ⟨[], 0, m.output, m.quitting⟩ (TrimSpace m.input)).m.quitting ∧
      r.cmd = (if r.m.quitting then Cmd.Quit else Cmd.nil) ∧
      r.m.input = [] ∧ r.m.cursor = 0 := by
  unfold Update
  simp only
  rw [if_neg h]
  exact ⟨_, rfl, rfl, rfl, rfl, rfl, rfl, execute_input .., execute_cursor ..⟩

/-- Witness of C3, amended: the buffer `"  vol 50  "`. -/
theorem Enter_nonblank_witness :
    TrimSpace (str "  vol 50  ") ≠ [] ∧
    ∃ r, Update plainEnv okClient [] ⟨str "  vol 50  ", 4, [], false⟩
        (Msg.Key KeyType.Enter []) = some r ∧
      r.emitted = some (TrimSpace (str "  vol 50  ")) ∧
      r.m.output = (execute plainEnv okClient [] ⟨[], 0, [], false⟩
        (TrimSpace (str "  vol 50  "))).out ∧
      r.log = [] ++ (execute plainEnv okClient [] ⟨[], 0, [], false⟩
        (TrimSpace (str "  vol 50  "))).calls ∧
      r.m.quitting = (execute plainEnv okClient [] ⟨[], 0, [], false⟩
        (TrimSpace (str "  vol 50  "))).m.quitting ∧
      r.cmd = (if r.m.quitting then Cmd.Quit else Cmd.nil) ∧
      r.m.input = [] ∧ r.m.cursor = 0 :=
  ⟨by decide, Enter_nonblank plainEnv okClient [] ⟨str "  vol 50  ", 4, [], false⟩ []
    (by decide)⟩

/-- Rune insertion at the end of the buffer appends and keeps the cursor at the end. -/
theorem UpdateAll_Runes_at_end (env : Env) (cl : Client) (log : List Call)
    (out : GoString) (q : Bool) (rss : List (List Rune)) :
    ∀ inp : GoString,
      UpdateAll env cl log ⟨inp, (inp.length : Int), out, q⟩ (rss.map (Msg.Key KeyType.Runes))
        = some (⟨inp ++ (rss.map runesToString).flatten,
            (inp.length : Int) + ((rss.map fun rs => ((runesToString rs).length : Int)).sum),
            out, q⟩, log) := by
  induction rss with
  | nil => intro inp; simp [UpdateAll]
  | cons rs rest ih =>
    intro inp
    have hto := sliceTo_of_le inp (inp.length : Int) (by omega) (le_refl _)
    have hfrom := sliceFrom_of_le inp (inp.length : Int) (by omega) (le_refl _)
    simp only [List.map_cons, UpdateAll, Update, hto, hfrom]
    have hlen : ((inp.length : Int) + ((runesToString rs).length : Int))
        = (((List.take (inp.length : Int).toNat inp ++ runesToString rs ++
            List.drop (inp.length : Int).toNat inp).length : Nat) : Int) := by
      simp
    rw [hlen, ih]
    simp [add_assoc]

/-- The sum of the lengths of the inserted strings is the length of their concatenation. -/
theorem sum_lengths_eq_length_flatten (rss : List (List Rune)) :
    (rss.map fun rs => ((runesToString rs).length : Int)).sum
      = (((rss.map runesToString).flatten.length : Nat) : Int) := by
  induction rss with
  | nil => rfl
  | cons rs rest ih =>
    simp only [List.map_cons, List.sum_cons, List.flatten_cons, List.length_append, ih]
    omega

/-- C4. Starting from the empty buffer with the cursor at 0, `Update` applied to any
finite sequence of rune-key (Insert) events returns every time, and leaves `input` equal
to the concatenation of the inserted strings in order and `cursor` equal to the sum of
their lengths, which is the length of `input`. -/
theorem Insert_sequence (env : Env) (cl : Client) (log : List Call) (out : GoString)
    (q : Bool) (rss : List (List Rune)) :
    UpdateAll env cl log ⟨[], 0, out, q⟩ (rss.map (Msg.Key KeyType.Runes))
      = some (⟨(rss.map runesToString).flatten,
          (rss.map fun rs => ((runesToString rs).length : Int)).sum, out, q⟩, log) ∧
    (rss.map fun rs => ((runesToString rs).length : Int)).sum
      = (((rss.map runesToString).flatten.length : Nat) : Int) := by
  have h := UpdateAll_Runes_at_end env cl log out q rss []
  exact ⟨by simpa using h, sum_lengths_eq_length_flatten rss⟩

/-- C5. DeleteBack: from a model with a valid cursor, `Update` on Backspace returns the
model unchanged when `cursor == 0`; when `cursor > 0` it returns `input[0:cursor-1]`
followed by `input[cursor:]`, which is `input` with the one byte at position `cursor-1`
removed, and the cursor decreased by 1. -/
theorem Backspace_spec (env : Env) (cl : Client) (log : List Call) (m : Model)
    (runes : List Rune) (h : Valid m) :
    Update env cl log m (Msg.Key KeyType.Backspace runes)
      = some ⟨if m.cursor = 0 then m
          else { m with
            input := m.input.take (m.cursor - 1).toNat ++ m.input.drop m.cursor.toNat,
            cursor := m.cursor - 1 },
        Cmd.nil, log, none⟩ ∧
    (0 < m.cursor →
      m.input.take (m.cursor - 1).toNat ++ m.input.drop m.cursor.toNat
        = m.input.eraseIdx (m.cursor - 1).toNat) := by
  obtain ⟨h0, h1⟩ := h
  constructor
  · unfold Update
    simp only
    by_cases hpos : m.cursor > 0
    · rw [if_pos hpos, if_neg (by omega),
        sliceTo_of_le m.input (m.cursor - 1) (by omega) (by omega),
        sliceFrom_of_le m.input m.cursor h0 h1]
    · rw [if_neg hpos, if_pos (by omega)]
  · intro hpos
    rw [List.eraseIdx_eq_take_drop_succ]
    congr 2
    omega

/-- Witness of C5: Backspace on `"abc"` with the cursor at 2 leaves `"ac"`, cursor 1. -/
theorem Backspace_spec_witness :
    Valid ⟨str "abc", 2, [], false⟩ ∧
      Update plainEnv okClient [] ⟨str "abc", 2, [], false⟩ (Msg.Key KeyType.Backspace [])
        = some ⟨⟨str "ac", 1, [], false⟩, Cmd.nil, [], none⟩ :=
  ⟨by decide,
    (Backspace_spec plainEnv okClient [] ⟨str "abc", 2, [], false⟩ [] (by decide)).1⟩

/-- C6. Kill operations: from a model with a valid cursor, `Update` on Ctrl-U returns
`input[cursor:]` with cursor 0, and `Update` on Ctrl-K returns `input[0:cursor]` with the
cursor unchanged, which is then the length of the new input. -/
theorem Kill_spec (env : Env) (cl : Client) (log : List Call) (m : Model)
    (runes : List Rune) (h : Valid m) :
    Update env cl log m (Msg.Key KeyType.CtrlU runes)
      = some ⟨{ m with input := m.input.drop m.cursor.toNat, cursor := 0 },
          Cmd.nil, log, none⟩ ∧
    Update env cl log m (Msg.Key KeyType.CtrlK runes)
      = some ⟨{ m with input := m.input.take m.cursor.toNat }, Cmd.nil, log, none⟩ ∧
    m.cursor = (((m.input.take m.cursor.toNat).length : Nat) : Int) := by
  obtain ⟨h0, h1⟩ := h
  refine ⟨?_, ?_, (length_take_of_le m.input m.cursor h0 h1).symm⟩
  · unfold Update
    simp only
    rw [sliceFrom_of_le m.input m.cursor h0 h1]
  · unfold Update
    simp only
    rw [sliceTo_of_le m.input m.cursor h0 h1]

/-- Witness of C6: `"hello"` with the cursor at 2; Ctrl-U leaves `"llo"` and cursor 0,
Ctrl-K leaves `"he"` and cursor 2. -/
theorem Kill_spec_witness :
    Valid ⟨str "hello", 2, [], false⟩ ∧
      Update plainEnv okClient [] ⟨str "hello", 2, [], false⟩ (Msg.Key KeyType.CtrlU [])
        = some ⟨⟨str "llo", 0, [], false⟩, Cmd.nil, [], none⟩ ∧
      Update plainEnv okClient [] ⟨str "hello", 2, [], false⟩ (Msg.Key KeyType.CtrlK [])
        = some ⟨⟨str "he", 2, [], false⟩, Cmd.nil, [], none⟩ :=
  ⟨by decide,
    (Kill_spec plainEnv okClient [] ⟨str "hello", 2, [], false⟩ [] (by decide)).1,
    (Kill_spec plainEnv okClient [] ⟨str "hello", 2, [], false⟩ [] (by decide)).2.1⟩

/-- C7. Cursor movement: from a model with a valid cursor, `Update` leaves everything but
the cursor unchanged and sets the cursor to `max(0, cursor-1)` on Left, to
`min(len(input), cursor+1)` on Right, to 0 on Ctrl-A and to `len(input)` on Ctrl-E; Left
at cursor 0 and Right at cursor `len(input)` return the model unchanged. -/
theorem Move_spec (env : Env) (cl : Client) (log : List Call) (m : Model)
    (runes : List Rune) (h : Valid m) :
    Update env cl log m (Msg.Key KeyType.Left runes)
      = some ⟨{ m with cursor := max 0 (m.cursor - 1) }, Cmd.nil, log, none⟩ ∧
    Update env cl log m (Msg.Key KeyType.Right runes)
      = some ⟨{ m with cursor := min (m.input.length : Int) (m.cursor + 1) },
          Cmd.nil, log, none⟩ ∧
    Update env cl log m (Msg.Key KeyType.CtrlA runes)
      = some ⟨{ m with cursor := 0 }, Cmd.nil, log, none⟩ ∧
    Update env cl log m (Msg.Key KeyType.CtrlE runes)
      = some ⟨{ m with cursor := (m.input.length : Int) }, Cmd.nil, log, none⟩ ∧
    (m.cursor = 0 →
      Update env cl log m (Msg.Key KeyType.Left runes) = some ⟨m, Cmd.nil, log, none⟩) ∧
    (m.cursor = (m.input.length : Int) →
      Update env cl log m (Msg.Key KeyType.Right runes) = some ⟨m, Cmd.nil, log, none⟩) := by
  obtain ⟨h0, h1⟩ := h
  refine ⟨?_, ?_, rfl, rfl, ?_, ?_⟩
  · unfold Update
    simp only
    by_cases hpos : m.cursor > 0
    · rw [if_pos hpos, max_eq_right (by omega)]
    · rw [if_neg hpos, max_eq_left (by omega)]
      have hc : m.cursor = 0 := by omega
      cases m
      simp_all
  · unfold Update
    simp only
    by_cases hlt : m.cursor < (m.input.length : Int)
    · rw [if_pos hlt, min_eq_right (by omega)]
    · rw [if_neg hlt, min_eq_left (by omega)]
      have hc : m.cursor = (m.input.length : Int) := by omega
      cases m
      simp_all
  · intro hc
    unfold Update
    simp only
    rw [if_neg (by omega)]
  · intro hc
    unfold Update
    simp only
    rw [if_neg (by omega)]

/-- Witness of C7: `"abc"` with the cursor at 3 (the right boundary). -/
theorem Move_spec_witness :
    Valid ⟨str "abc", 3, [], false⟩ ∧
      Update plainEnv okClient [] ⟨str "abc", 3, [], false⟩ (Msg.Key KeyType.Left [])
        = some ⟨⟨str "abc", 2, [], false⟩, Cmd.nil, [], none⟩ ∧
      Update plainEnv okClient [] ⟨str "abc", 3, [], false⟩ (Msg.Key KeyType.Right [])
        = some ⟨⟨str "abc", 3, [], false⟩, Cmd.nil, [], none⟩ :=
  ⟨by decide,
    (Move_spec plainEnv okClient [] ⟨str "abc", 3, [], false⟩ [] (by decide)).1,
    (Move_spec plainEnv okClient [] ⟨str "abc", 3, [], false⟩ [] (by decide)).2.2.2.2.2 rfl⟩

/-! ## The command dispatcher -/

theorem execute_of_Fields (env : Env) (cl : Client) (hist : List Call) (m : Model)
    (line p0 : GoString) (args : List GoString) (hF : Fields line = p0 :: args) :
    execute env cl hist m line = dispatch env cl hist m (ToLower env.mapLower p0) args := by
  unfold execute
  rw [hF]

theorem dispatch_play (env : Env) (cl : Client) (hist : List Call) (m : Model)
    (args : List GoString) :
    dispatch env cl hist m (str "play") args = cmdPlay env cl hist m args := by
  unfold dispatch
  rw [if_neg (by decide), if_pos rfl]

theorem dispatch_vol (env : Env) (cl : Client) (hist : List Call) (m : Model)
    (args : List GoString) :
    dispatch env cl hist m (str "vol") args = cmdVol env cl hist m args := by
  unfold dispatch
  rw [if_neg (by decide), if_neg (by decide), if_neg (by decide), if_neg (by decide),
    if_neg (by decide), if_pos rfl]

theorem dispatch_seek (env : Env) (cl : Client) (hist : List Call) (m : Model)
    (args : List GoString) :
    dispatch env cl hist m (str "seek") args = cmdSeek env cl hist m args := by
  unfold dispatch
  rw [if_neg (by decide), if_neg (by decide), if_neg (by decide), if_neg (by decide),
    if_neg (by decide), if_neg (by decide), if_pos rfl]

theorem dispatch_queue (env : Env) (cl : Client) (hist : List Call) (m : Model)
    (args : List GoString) :
    dispatch env cl hist m (str "queue") args = cmdQueue env cl hist m args := by
  unfold dispatch
  rw [if_neg (by decide), if_neg (by decide), if_neg (by decide), if_neg (by decide),
    if_neg (by decide), if_neg (by decide), if_neg (by decide), if_neg (by decide), if_pos rfl]

/-- C8. Validation failures never reach the remote. For a line whose first token,
lower-cased, is `cmd` and whose remaining tokens are `args`: when `args` is empty and
`cmd` is `play`, `queue`, `vol` or `seek`, and when `cmd` is `vol` with a first argument
that `Atoi` rejects or that is outside `[0,100]`, and when `cmd` is `seek` with a first
argument that `Atoi` rejects or that is negative, `execute` returns the usage or
validation message of that command in the error style, makes no call on the client, and
returns the model, `quitting` included, unchanged. -/
theorem Validation_failure (env : Env) (cl : Client) (hist : List Call) (m : Model)
    (line p0 : GoString) (args : List GoString) (hF : Fields line = p0 :: args) :
    (ToLower env.mapLower p0 = str "play" → args = [] →
      execute env cl hist m line
        = ⟨env.errorStyle (str "Usage: play <spotify-uri>"), m, []⟩) ∧
    (ToLower env.mapLower p0 = str "queue" → args = [] →
      execute env cl hist m line
        = ⟨env.errorStyle (str "Usage: queue <spotify-uri>"), m, []⟩) ∧
    (ToLower env.mapLower p0 = str "vol" → args = [] →
      execute env cl hist m line = ⟨env.errorStyle (str "Usage: vol <0-100>"), m, []⟩) ∧
    (ToLower env.mapLower p0 = str "seek" → args = [] →
      execute env cl hist m line = ⟨env.errorStyle (str "Usage: seek <seconds>"), m, []⟩) ∧
    (∀ a rest, ToLower env.mapLower p0 = str "vol" → args = a :: rest →
      (Atoi a = none ∨ ∃ v, Atoi a = some v ∧ (v < 0 ∨ 100 < v)) →
      execute env cl hist m line = ⟨env.errorStyle (str "Volume must be 0-100"), m, []⟩) ∧
    (∀ a rest, ToLower env.mapLower p0 = str "seek" → args = a :: rest →
      (Atoi a = none ∨ ∃ v, Atoi a = some v ∧ v < 0) →
      execute env cl hist m line
        = ⟨env.errorStyle (str "Seek position must be a positive number of seconds"),
            m, []⟩) := by
  rw [execute_of_Fields env cl hist m line p0 args hF]
  refine ⟨?_, ?_, ?_, ?_, ?_, ?_⟩
  · intro hc ha
    rw [hc, ha, dispatch_play]
    rfl
  · intro hc ha
    rw [hc, ha, dispatch_queue]
    rfl
  · intro hc ha
    rw [hc, ha, dispatch_vol]
    rfl
  · intro hc ha
    rw [hc, ha, dispatch_seek]
    rfl
  · intro a rest hc ha hbad
    rw [hc, ha, dispatch_vol]
    unfold cmdVol
    rcases hbad with hn | ⟨v, hv, hr⟩
    · simp only [hn]
    · simp only [hv]
      rw [if_pos (by omega)]
  · intro a rest hc ha hbad
    rw [hc, ha, dispatch_seek]
    unfold cmdSeek
    rcases hbad with hn | ⟨v, hv, hr⟩
    · simp only [hn]
    · simp only [hv]
      rw [if_pos hr]

/-- Witness of C8: the line `"vol 150"`, whose argument is an integer above 100. -/
theorem Validation_failure_witness :
    Fields (str "vol 150") = [str "vol", str "150"] ∧
      Atoi (str "150") = some 150 ∧
      execute plainEnv okClient [] ⟨[], 0, [], false⟩ (str "vol 150")
        = ⟨str "Volume must be 0-100", ⟨[], 0, [], false⟩, []⟩ :=
  ⟨by decide, by decide,
    (Validation_failure plainEnv okClient [] ⟨[], 0, [], false⟩ (str "vol 150") (str "vol")
      [str "150"] (by decide)).2.2.2.2.1 (str "150") [] (by decide) rfl
      (Or.inr ⟨150, by decide, Or.inr (by decide)⟩)⟩

theorem postThen_calls (env : Env) (cl : Client) (hist : List Call) (m : Model) (c : Call)
    (ok : GoString) : (postThen env cl hist m c ok).calls = [c] := by
  unfold postThen
  split <;> rfl

theorem postThen_out_ok (env : Env) (cl : Client) (hist : List Call) (m : Model) (c : Call)
    (ok : GoString) (h : cl.post hist c = none) : (postThen env cl hist m c ok).out = ok := by
  unfold postThen
  rw [h]

/-- C9. `vol` accepts exactly the integers 0..100. For a line whose first token,
lower-cased, is `vol` and whose second token is `a`: `execute` calls `Volume` on the
client if and only if `Atoi a` succeeds with a value `v` in `[0,100]`; then the calls it
makes are exactly the one call `Volume(v)`, and when that call succeeds the result is
`"🔊 "` followed by `"Volume: "`, `v` in decimal and `"%"`. -/
theorem Vol_spec (env : Env) (cl : Client) (hist : List Call) (m : Model)
    (line p0 a : GoString) (rest : List GoString) (hF : Fields line = p0 :: a :: rest)
    (hc : ToLower env.mapLower p0 = str "vol") :
    ((∃ v, Call.Volume v ∈ (execute env cl hist m line).calls) ↔
      ∃ v, Atoi a = some v ∧ 0 ≤ v ∧ v ≤ 100) ∧
    ∀ v, Atoi a = some v → 0 ≤ v → v ≤ 100 →
      (execute env cl hist m line).calls = [Call.Volume v] ∧
      (cl.post hist (Call.Volume v) = none →
        (execute env cl hist m line).out
          = str "🔊 " ++ (str "Volume: " ++ fmtD v ++ str "%")) := by
  rw [execute_of_Fields env cl hist m line p0 (a :: rest) hF, hc, dispatch_vol]
  unfold cmdVol
  simp only
  cases hA : Atoi a with
  | none => simp
  | some w =>
    simp only
    by_cases hr : w < 0 ∨ w > 100
    · rw [if_pos hr]
      constructor
      · constructor
        · rintro ⟨v, hv⟩
          simp at hv
        · rintro ⟨v, hv, h0, h1⟩
          cases hv
          omega
      · intro v hv h0 h1
        cases hv
        omega
    · rw [if_neg hr]
      constructor
      · constructor
        · intro _
          exact ⟨w, rfl, by omega, by omega⟩
        · intro _
          exact ⟨w, by rw [postThen_calls]; exact List.mem_singleton.mpr rfl⟩
      · intro v hv h0 h1
        cases hv
        refine ⟨postThen_calls .., fun hok => ?_⟩
        rw [postThen_out_ok _ _ _ _ _ _ hok]
        have hs : str "🔊 Volume: " = str "🔊 " ++ str "Volume: " := by decide
        rw [hs]
        simp only [List.append_assoc]

/-- Witness of C9: the line `"vol 50"` calls `Volume(50)` once and, the call succeeding,
returns `"🔊 Volume: 50%"`. -/
theorem Vol_spec_witness :
    Fields (str "vol 50") = [str "vol", str "50"] ∧
      ToLower plainEnv.mapLower (str "vol") = str "vol" ∧
      Atoi (str "50") = some 50 ∧
      (execute plainEnv okClient [] ⟨[], 0, [], false⟩ (str "vol 50")).calls
        = [Call.Volume 50] ∧
      (execute plainEnv okClient [] ⟨[], 0, [], false⟩ (str "vol 50")).out
        = str "🔊 " ++ (str "Volume: " ++ fmtD 50 ++ str "%") :=
  ⟨by decide, by decide, by decide,
    ((Vol_spec plainEnv okClient [] ⟨[], 0, [], false⟩ (str "vol 50") (str "vol") (str "50") []
      (by decide) (by decide)).2 50 (by decide) (by decide) (by decide)).1,
    ((Vol_spec plainEnv okClient [] ⟨[], 0, [], false⟩ (str "vol 50") (str "vol") (str "50") []
      (by decide) (by decide)).2 50 (by decide) (by decide) (by decide)).2 rfl⟩

/-- C10, the failing input. On `"seek 9223372036854775807"` the argument parses as the
largest 64-bit `int`, `secs * 1000` wraps around, and `execute` calls `Seek(-1000)`, a
negative position that is not `9223372036854775807 * 1000`, and returns
`"⏩ Seeked to 0:-1"`. -/
theorem Seek_overflow :
    Fields (str "seek 9223372036854775807") = [str "seek", str "9223372036854775807"] ∧
      Atoi (str "9223372036854775807") = some 9223372036854775807 ∧
      execute plainEnv okClient [] ⟨[], 0, [], false⟩ (str "seek 9223372036854775807")
        = ⟨str "⏩ Seeked to 0:-1", ⟨[], 0, [], false⟩, [Call.Seek (-1000)]⟩ ∧
      (-1000 : Int) ≠ 9223372036854775807 * 1000 := by
  decide

/-- Within the range where `secs * 1000` fits a 64-bit `int`, `seek` does what C10 says:
it calls `Seek(secs * 1000)` once and, the call succeeding, returns `"⏩ Seeked to "`
followed by `secs / 60`, a colon and `secs % 60` on two digits. -/
theorem Seek_in_range (env : Env) (cl : Client) (hist : List Call) (m : Model)
    (line p0 a : GoString) (rest : List GoString) (secs : Int)
    (hF : Fields line = p0 :: a :: rest) (hc : ToLower env.mapLower p0 = str "seek")
    (hA : Atoi a = some secs) (h0 : 0 ≤ secs) (h1 : secs * 1000 < 2 ^ 63) :
    (execute env cl hist m line).calls = [Call.Seek (secs * 1000)] ∧
    (cl.post hist (Call.Seek (secs * 1000)) = none →
      (execute env cl hist m line).out
        = str "⏩ Seeked to " ++ (fmtD (secs / 60) ++ str ":" ++ fmtD02 (secs % 60))) := by
  rw [execute_of_Fields env cl hist m line p0 (a :: rest) hF, hc, dispatch_seek]
  unfold cmdSeek
  simp only [hA]
  rw [if_neg (by omega)]
  have hw : wrapInt (secs * 1000) = secs * 1000 := by
    unfold wrapInt
    omega
  rw [hw]
  refine ⟨postThen_calls .., fun hok => ?_⟩
  rw [postThen_out_ok _ _ _ _ _ _ hok]
  unfold FormatTime
  have ht : Int.tdiv (secs * 1000) 1000 = secs := by
    rw [Int.tdiv_eq_ediv (by omega) (by omega)]
    omega
  simp only [ht]
  rw [Int.tdiv_eq_ediv h0 (by omega), Int.tmod_eq_emod h0 (by omega)]

/-- The line `"seek 125"` calls `Seek(125000)` and returns a string ending in `"2:05"`. -/
theorem Seek_125 :
    execute plainEnv okClient [] ⟨[], 0, [], false⟩ (str "seek 125")
      = ⟨str "⏩ Seeked to " ++ str "2:05", ⟨[], 0, [], false⟩, [Call.Seek 125000]⟩ := by
  decide

/-- Case analysis on the `switch` of `execute`: a property holds of the result of
`dispatch` as soon as it holds of the result of every case, each under the condition
that selects it. -/
theorem dispatch_cases (P : ExecResult → Prop) (env : Env) (cl : Client)
    (hist : List Call) (m : Model) (cmd : GoString) (args : List GoString)
    (hstatus : cmd = str "status" ∨ cmd = str "s" → P (cmdStatus env cl hist m))
    (hplay : cmd = str "play" → P (cmdPlay env cl hist m args))
    (hpause : cmd = str "pause" ∨ cmd = str "pp" →
      P (postThen env cl hist m Call.PlayPause (str "⏯ Toggled play/pause")))
    (hnext : cmd = str "next" ∨ cmd = str "n" →
      P (postThen env cl hist m Call.Next (str "⏭ Next track")))
    (hprev : cmd = str "prev" ∨ cmd = str "p" →
      P (postThen env cl hist m Call.Prev (str "⏮ Previous track")))
    (hvol : cmd = str "vol" → P (cmdVol env cl hist m args))
    (hseek : cmd = str "seek" → P (cmdSeek env cl hist m args))
    (hshuffle : cmd = str "shuffle" → P (cmdShuffle env cl hist m))
    (hqueue : cmd = str "queue" → P (cmdQueue env cl hist m args))
    (hhelp : cmd = str "help" ∨ cmd = str "h" → P ⟨helpText env, m, []⟩)
    (hquit : cmd = str "quit" ∨ cmd = str "q" →
      P ⟨str "Bye!", { m with quitting := true }, []⟩)
    (hunknown : cmd ∉ commandNames →
      P ⟨env.errorStyle (str "Unknown command: " ++ cmd ++ str " (type 'help' for commands)"),
        m, []⟩) :
    P (dispatch env cl hist m cmd args) := by
  unfold dispatch
  by_cases h1 : cmd = str "status" ∨ cmd = str "s"
  · rw [if_pos h1]; exact hstatus h1
  rw [if_neg h1]
  by_cases h2 : cmd = str "play"
  · rw [if_pos h2]; exact hplay h2
  rw [if_neg h2]
  by_cases h3 : cmd = str "pause" ∨ cmd = str "pp"
  · rw [if_pos h3]; exact hpause h3
  rw [if_neg h3]
  by_cases h4 : cmd = str "next" ∨ cmd = str "n"
  · rw [if_pos h4]; exact hnext h4
  rw [if_neg h4]
  by_cases h5 : cmd = str "prev" ∨ cmd = str "p"
  · rw [if_pos h5]; exact hprev h5
  rw [if_neg h5]
  by_cases h6 : cmd = str "vol"
  · rw [if_pos h6]; exact hvol h6
  rw [if_neg h6]
  by_cases h7 : cmd = str "seek"
  · rw [if_pos h7]; exact hseek h7
  rw [if_neg h7]
  by_cases h8 : cmd = str "shuffle"
  · rw [if_pos h8]; exact hshuffle h8
  rw [if_neg h8]
  by_cases h9 : cmd = str "queue"
  · rw [if_pos h9]; exact hqueue h9
  rw [if_neg h9]
  by_cases h10 : cmd = str "help" ∨ cmd = str "h"
  · rw [if_pos h10]; exact hhelp h10
  rw [if_neg h10]
  by_cases h11 : cmd = str "quit" ∨ cmd = str "q"
  · rw [if_pos h11]; exact hquit h11
  rw [if_neg h11]
  apply hunknown
  unfold commandNames
  simp only [List.mem_cons, List.mem_singleton, List.not_mem_nil, or_false, not_or]
  exact ⟨fun h => h1 (Or.inl h), fun h => h1 (Or.inr h), h2, fun h => h3 (Or.inl h),
    fun h => h3 (Or.inr h), fun h => h4 (Or.inl h), fun h => h4 (Or.inr h),
    fun h => h5 (Or.inl h), fun h => h5 (Or.inr h), h6, h7, h8, h9,
    fun h => h10 (Or.inl h), fun h => h10 (Or.inr h), fun h => h11 (Or.inl h),
    fun h => h11 (Or.inr h)⟩

theorem dispatch_shuffle (env : Env) (cl : Client) (hist : List Call) (m : Model)
    (args : List GoString) :
    dispatch env cl hist m (str "shuffle") args = cmdShuffle env cl hist m := by
  unfold dispatch
  rw [if_neg (by decide), if_neg (by decide), if_neg (by decide), if_neg (by decide),
    if_neg (by decide), if_neg (by decide), if_neg (by decide), if_pos rfl]

/-- C11. `shuffle` toggles and reports the new state. For a line whose first token,
lower-cased, is `shuffle`: when the status fetch succeeds with shuffle flag `b`, the
calls of `execute` are `Status` and then `Shuffle(!b)`, and when that second call
succeeds the result is `"🔀 "` followed by `"Shuffle on"` if `b` was false and by
`"Shuffle off"` if `b` was true; when the status fetch fails, `Status` is the only call
and `Shuffle` is not called. -/
theorem Shuffle_spec (env : Env) (cl : Client) (hist : List Call) (m : Model)
    (line p0 : GoString) (args : List GoString) (hF : Fields line = p0 :: args)
    (hc : ToLower env.mapLower p0 = str "shuffle") :
    (∀ s, cl.status hist = Except.ok s →
      (execute env cl hist m line).calls = [Call.Status, Call.Shuffle (!s.ShuffleContext)] ∧
      (cl.post (hist ++ [Call.Status]) (Call.Shuffle (!s.ShuffleContext)) = none →
        (execute env cl hist m line).out
          = str "🔀 " ++ (if s.ShuffleContext then str "Shuffle off" else str "Shuffle on"))) ∧
    (∀ e, cl.status hist = Except.error e →
      (execute env cl hist m line).calls = [Call.Status] ∧
      ∀ b, Call.Shuffle b ∉ (execute env cl hist m line).calls) := by
  rw [execute_of_Fields env cl hist m line p0 args hF, hc, dispatch_shuffle]
  unfold cmdShuffle
  constructor
  · intro s hs
    rw [hs]
    simp only
    constructor
    · split <;> rfl
    · intro hok
      rw [hok]
      simp only
      cases s.ShuffleContext
      · simp only [Bool.false_eq_true, if_false]
        decide
      · simp only [if_true]
        decide
  · intro e he
    rw [he]
    simp

/-- Witness of C11: `"shuffle"` against a client whose snapshot has the shuffle flag
off and whose calls succeed: `Shuffle(true)` is called and the result is
`"🔀 Shuffle on"`. -/
theorem Shuffle_spec_witness :
    Fields (str "shuffle") = [str "shuffle"] ∧
      ToLower plainEnv.mapLower (str "shuffle") = str "shuffle" ∧
      (execute plainEnv okClient [] ⟨[], 0, [], false⟩ (str "shuffle")).calls
        = [Call.Status, Call.Shuffle true] ∧
      (execute plainEnv okClient [] ⟨[], 0, [], false⟩ (str "shuffle")).out
        = str "🔀 " ++ str "Shuffle on" :=
  ⟨by decide, by decide,
    ((Shuffle_spec plainEnv okClient [] ⟨[], 0, [], false⟩ (str "shuffle") (str "shuffle") []
      (by decide) (by decide)).1 ⟨true, false, false, 0, 0, false, none⟩ rfl).1,
    ((Shuffle_spec plainEnv okClient [] ⟨[], 0, [], false⟩ (str "shuffle") (str "shuffle") []
      (by decide) (by decide)).1 ⟨true, false, false, 0, 0, false, none⟩ rfl).2 rfl⟩

/-- C13. Unknown command: for a line whose first token, lower-cased, is none of the
command names and aliases of the table, `execute` returns, in the error style,
`"Unknown command: X (type 'help' for commands)"` with `X` that lower-cased token,
makes no call on the client and returns the model, `quitting` included, unchanged. -/
theorem Unknown_command (env : Env) (cl : Client) (hist : List Call) (m : Model)
    (line p0 : GoString) (args : List GoString) (hF : Fields line = p0 :: args)
    (h : ToLower env.mapLower p0 ∉ commandNames) :
    execute env cl hist m line
      = ⟨env.errorStyle (str "Unknown command: " ++ ToLower env.mapLower p0 ++
            str " (type 'help' for commands)"), m, []⟩ := by
  rw [execute_of_Fields env cl hist m line p0 args hF]
  apply dispatch_cases (fun r => r = (⟨env.errorStyle (str "Unknown command: " ++
      ToLower env.mapLower p0 ++ str " (type 'help' for commands)"), m, []⟩ : ExecResult))
  · intro hc; exact absurd (by rcases hc with hc | hc <;> rw [hc] <;> decide) h
  · intro hc; exact absurd (by rw [hc]; decide) h
  · intro hc; exact absurd (by rcases hc with hc | hc <;> rw [hc] <;> decide) h
  · intro hc; exact absurd (by rcases hc with hc | hc <;> rw [hc] <;> decide) h
  · intro hc; exact absurd (by rcases hc with hc | hc <;> rw [hc] <;> decide) h
  · intro hc; exact absurd (by rw [hc]; decide) h
  · intro hc; exact absurd (by rw [hc]; decide) h
  · intro hc; exact absurd (by rw [hc]; decide) h
  · intro hc; exact absurd (by rw [hc]; decide) h
  · intro hc; exact absurd (by rcases hc with hc | hc <;> rw [hc] <;> decide) h
  · intro hc; exact absurd (by rcases hc with hc | hc <;> rw [hc] <;> decide) h
  · intro _; rfl

/-- Witness of C13: the line `"xyz"`; the message mentions `xyz`. -/
theorem Unknown_command_witness :
    Fields (str "xyz") = [str "xyz"] ∧
      ToLower plainEnv.mapLower (str "xyz") ∉ commandNames ∧
      execute plainEnv okClient [] ⟨[], 0, [], false⟩ (str "xyz")
        = ⟨str "Unknown command: " ++ str "xyz" ++ str " (type 'help' for commands)",
            ⟨[], 0, [], false⟩, []⟩ :=
  ⟨by decide, by decide,
    Unknown_command plainEnv okClient [] ⟨[], 0, [], false⟩ (str "xyz") (str "xyz") []
      (by decide) (by decide)⟩

/-! ## Number formatting -/

theorem digitsAux_eq_digits (fuel : Nat) :
    ∀ (n : Nat) (acc : GoString), n < fuel → 0 < n →
      digitsAux fuel n acc = (Nat.digits 10 n).reverse.map (48 + ·) ++ acc := by
  induction fuel with
  | zero => intro n acc h; omega
  | succ fuel ih =>
    intro n acc hlt hpos
    unfold digitsAux
    by_cases h10 : n < 10
    · rw [if_pos h10, Nat.digits_of_lt 10 n (by omega) h10]
      rfl
    · rw [if_neg h10, ih (n / 10) _ (by omega) (by omega),
        Nat.digits_def' (by omega : 1 < 10) hpos]
      simp

/-- The digits `%d` prints are the decimal numeral. -/
theorem natDigits_eq_decimal (n : Nat) : natDigits n = decimal n := by
  unfold natDigits decimal
  by_cases h0 : n = 0
  · subst h0
    rfl
  · rw [if_neg h0, digitsAux_eq_digits (n + 1) n [] (by omega) (by omega)]
    simp

theorem fmtD_natCast (n : Nat) : fmtD (n : Int) = decimal n := by
  unfold fmtD
  rw [if_neg (by omega), Int.toNat_ofNat, natDigits_eq_decimal]

theorem fmtD02_natCast : ∀ n : Nat, n < 60 → fmtD02 (n : Int) = [48 + n / 10, 48 + n % 10] := by
  decide

/-- C14. `FormatTime` renders minutes and seconds by floor division: for every
`ms ≥ 0` the result is the decimal numeral of `ms / 60000`, a colon, and the value
`ms / 1000 mod 60`, which is below 60, written with exactly two decimal digits; and
`FormatTime` gives `"0:00"`, `"0:59"`, `"1:00"` and `"2:05"` at 0, 59999, 60000 and
125000. -/
theorem FormatTime_spec (ms : Int) (h : 0 ≤ ms) :
    FormatTime ms
      = decimal (ms.toNat / 60000) ++ str ":" ++
          [48 + ms.toNat / 1000 % 60 / 10, 48 + ms.toNat / 1000 % 60 % 10] ∧
    ms.toNat / 1000 % 60 < 60 ∧
    FormatTime 0 = str "0:00" ∧ FormatTime 59999 = str "0:59" ∧
    FormatTime 60000 = str "1:00" ∧ FormatTime 125000 = str "2:05" := by
  refine ⟨?_, Nat.mod_lt _ (by omega), by decide, by decide, by decide, by decide⟩
  obtain ⟨n, rfl⟩ := Int.eq_ofNat_of_zero_le h
  unfold FormatTime
  simp only [Int.toNat_ofNat]
  have h1 : Int.tdiv (n : Int) 1000 = ((n / 1000 : Nat) : Int) := by
    rw [Int.tdiv_eq_ediv (by omega) (by omega)]
    rfl
  have h2 : Int.tdiv ((n / 1000 : Nat) : Int) 60 = ((n / 60000 : Nat) : Int) := by
    rw [Int.tdiv_eq_ediv (by omega) (by omega)]
    omega
  have h3 : Int.tmod ((n / 1000 : Nat) : Int) 60 = ((n / 1000 % 60 : Nat) : Int) := by
    rw [Int.tmod_eq_emod (by omega) (by omega)]
    rfl
  rw [h1, h2, h3, fmtD_natCast, fmtD02_natCast _ (Nat.mod_lt _ (by omega))]

/-- Witness of C14: 3 725 000 ms is sixty-two minutes and five seconds, `"62:05"`. -/
theorem FormatTime_spec_witness :
    (0 : Int) ≤ 3725000 ∧
      FormatTime 3725000
        = decimal (Int.toNat 3725000 / 60000) ++ str ":" ++
            [48 + Int.toNat 3725000 / 1000 % 60 / 10, 48 + Int.toNat 3725000 / 1000 % 60 % 10] ∧
      FormatTime 3725000 = str "62:05" :=
  ⟨by decide, (FormatTime_spec 3725000 (by decide)).1, by decide⟩

/-! ## Client calls and errors -/

theorem singleton_eq_append_cons {α : Type} (a c : α) (cs rest : List α)
    (h : [a] = cs ++ c :: rest) : cs = [] ∧ c = a ∧ rest = [] := by
  cases cs with
  | nil =>
    simp only [List.nil_append, List.cons.injEq] at h
    exact ⟨rfl, h.1.symm, h.2.symm⟩
  | cons x xs =>
    simp only [List.cons_append, List.cons.injEq] at h
    exact absurd h.2 (by simp)

theorem pair_eq_append_cons {α : Type} (a b c : α) (cs rest : List α)
    (h : [a, b] = cs ++ c :: rest) :
    (cs = [] ∧ c = a ∧ rest = [b]) ∨ (cs = [a] ∧ c = b ∧ rest = []) := by
  cases cs with
  | nil =>
    simp only [List.nil_append, List.cons.injEq] at h
    exact Or.inl ⟨rfl, h.1.symm, h.2.symm⟩
  | cons x xs =>
    simp only [List.cons_append, List.cons.injEq] at h
    obtain ⟨hx, hxs⟩ := h
    obtain ⟨h1, h2, h3⟩ := singleton_eq_append_cons b c xs rest hxs
    exact Or.inr ⟨by rw [h1, hx], h2, h3⟩

theorem SurfacesErrors_of_no_calls (env : Env) (cl : Client) (hist : List Call) (m : Model)
    (r : ExecResult) (h : r.calls = []) : SurfacesErrors env cl hist m r := by
  intro cs c rest e hcalls _
  rw [h] at hcalls
  exact absurd hcalls (by simp)

theorem SurfacesErrors_postThen (env : Env) (cl : Client) (hist : List Call) (m : Model)
    (c0 : Call) (ok : GoString) (hc0 : ∀ h, replyError cl h c0 = cl.post h c0) :
    SurfacesErrors env cl hist m (postThen env cl hist m c0 ok) := by
  intro cs c rest e hcalls herr
  rw [postThen_calls] at hcalls
  obtain ⟨h1, h2, h3⟩ := singleton_eq_append_cons c0 c cs rest hcalls
  subst h1 h2
  rw [List.append_nil, hc0] at herr
  unfold postThen
  rw [herr]
  exact ⟨rfl, rfl, h3⟩

theorem SurfacesErrors_cmdStatus (env : Env) (cl : Client) (hist : List Call) (m : Model) :
    SurfacesErrors env cl hist m (cmdStatus env cl hist m) := by
  intro cs c rest e hcalls herr
  unfold cmdStatus at hcalls ⊢
  cases hs : cl.status hist with
  | error e0 =>
    rw [hs] at hcalls
    obtain ⟨h1, h2, h3⟩ := singleton_eq_append_cons _ c cs rest hcalls
    subst h1 h2
    simp only [replyError, List.append_nil, hs, Option.some.injEq] at herr
    subst herr
    exact ⟨rfl, rfl, h3⟩
  | ok st =>
    rw [hs] at hcalls
    obtain ⟨h1, h2, h3⟩ := singleton_eq_append_cons _ c cs rest hcalls
    subst h1 h2
    simp [replyError, hs] at herr

theorem SurfacesErrors_cmdShuffle (env : Env) (cl : Client) (hist : List Call) (m : Model) :
    SurfacesErrors env cl hist m (cmdShuffle env cl hist m) := by
  intro cs c rest e hcalls herr
  unfold cmdShuffle at hcalls ⊢
  cases hs : cl.status hist with
  | error e0 =>
    rw [hs] at hcalls
    obtain ⟨h1, h2, h3⟩ := singleton_eq_append_cons _ c cs rest hcalls
    subst h1 h2
    simp only [replyError, List.append_nil, hs, Option.some.injEq] at herr
    subst herr
    exact ⟨rfl, rfl, h3⟩
  | ok st =>
    rw [hs] at hcalls
    simp only at hcalls ⊢
    cases hp : cl.post (hist ++ [Call.Status]) (Call.Shuffle (!st.ShuffleContext)) with
    | some e1 =>
      rw [hp] at hcalls
      rcases pair_eq_append_cons _ _ c cs rest hcalls with ⟨h1, h2, _⟩ | ⟨h1, h2, h3⟩
      · subst h1 h2
        simp [replyError, hs] at herr
      · subst h1 h2
        simp only [replyError, hp, Option.some.injEq] at herr
        subst herr
        exact ⟨rfl, rfl, h3⟩
    | none =>
      rw [hp] at hcalls
      rcases pair_eq_append_cons _ _ c cs rest hcalls with ⟨h1, h2, _⟩ | ⟨h1, h2, h3⟩
      · subst h1 h2
        simp [replyError, hs] at herr
      · subst h1 h2
        simp [replyError, hp] at herr

theorem SurfacesErrors_dispatch (env : Env) (cl : Client) (hist : List Call) (m : Model)
    (cmd : GoString) (args : List GoString) :
    SurfacesErrors env cl hist m (dispatch env cl hist m cmd args) := by
  apply dispatch_cases (SurfacesErrors env cl hist m)
  · intro _; exact SurfacesErrors_cmdStatus _ _ _ _
  · intro _
    unfold cmdPlay
    split
    · exact SurfacesErrors_of_no_calls _ _ _ _ _ rfl
    · exact SurfacesErrors_postThen _ _ _ _ _ _ (fun _ => rfl)
  · intro _; exact SurfacesErrors_postThen _ _ _ _ _ _ (fun _ => rfl)
  · intro _; exact SurfacesErrors_postThen _ _ _ _ _ _ (fun _ => rfl)
  · intro _; exact SurfacesErrors_postThen _ _ _ _ _ _ (fun _ => rfl)
  · intro _
    unfold cmdVol
    split
    · exact SurfacesErrors_of_no_calls _ _ _ _ _ rfl
    · split
      · exact SurfacesErrors_of_no_calls _ _ _ _ _ rfl
      · split
        · exact SurfacesErrors_of_no_calls _ _ _ _ _ rfl
        · exact SurfacesErrors_postThen _ _ _ _ _ _ (fun _ => rfl)
  · intro _
    unfold cmdSeek
    split
    · exact SurfacesErrors_of_no_calls _ _ _ _ _ rfl
    · split
      · exact SurfacesErrors_of_no_calls _ _ _ _ _ rfl
      · split
        · exact SurfacesErrors_of_no_calls _ _ _ _ _ rfl
        · exact SurfacesErrors_postThen _ _ _ _ _ _ (fun _ => rfl)
  · intro _; exact SurfacesErrors_cmdShuffle _ _ _ _
  · intro _
    unfold cmdQueue
    split
    · exact SurfacesErrors_of_no_calls _ _ _ _ _ rfl
    · exact SurfacesErrors_postThen _ _ _ _ _ _ (fun _ => rfl)
  · intro _; exact SurfacesErrors_of_no_calls _ _ _ _ _ rfl
  · intro _; exact SurfacesErrors_of_no_calls _ _ _ _ _ rfl
  · intro _; exact SurfacesErrors_of_no_calls _ _ _ _ _ rfl

/-- C15. Remote errors are surfaced and never force a quit. For every line: whenever a
call that `execute` makes on the client (`Status`, `Play`, `PlayPause`, `Next`, `Prev`,
`Volume`, `Seek`, `Shuffle` or `Queue`, made after the history `hist` and the calls
before it) is answered with an error `e`, no further call follows, `execute` returns
`"Error: "` followed by the message of `e` verbatim, rendered in the error style, and
the model after `execute`, `quitting` included, is the model before it. -/
theorem Remote_error_surfaced (env : Env) (cl : Client) (hist : List Call) (m : Model)
    (line : GoString) (cs : List Call) (c : Call) (rest : List Call) (e : GoString)
    (hcalls : (execute env cl hist m line).calls = cs ++ c :: rest)
    (herr : replyError cl (hist ++ cs) c = some e) :
    (execute env cl hist m line).out = env.errorStyle (str "Error: " ++ e) ∧
      (execute env cl hist m line).m.quitting = m.quitting ∧
      (execute env cl hist m line).m = m ∧ rest = [] := by
  have key : SurfacesErrors env cl hist m (execute env cl hist m line) := by
    unfold execute
    split
    · exact SurfacesErrors_of_no_calls _ _ _ _ _ rfl
    · exact SurfacesErrors_dispatch _ _ _ _ _ _
  obtain ⟨h1, h2, h3⟩ := key cs c rest e hcalls herr
  exact ⟨h1, by rw [h2], h2, h3⟩

/-- Witness of C15: `"shuffle"` against a client that is down: the status fetch fails,
the result is `"Error: down"` and `quitting` stays false. -/
theorem Remote_error_surfaced_witness :
    (execute plainEnv downClient [] ⟨[], 0, [], false⟩ (str "shuffle")).calls
        = [] ++ Call.Status :: [] ∧
      replyError downClient ([] ++ []) Call.Status = some (str "down") ∧
      (execute plainEnv downClient [] ⟨[], 0, [], false⟩ (str "shuffle")).out
        = str "Error: " ++ str "down" ∧
      (execute plainEnv downClient [] ⟨[], 0, [], false⟩ (str "shuffle")).m.quitting = false :=
  ⟨by decide, by decide,
    (Remote_error_surfaced plainEnv downClient [] ⟨[], 0, [], false⟩ (str "shuffle") []
      Call.Status [] (str "down") (by decide) (by decide)).1,
    (Remote_error_surfaced plainEnv downClient [] ⟨[], 0, [], false⟩ (str "shuffle") []
      Call.Status [] (str "down") (by decide) (by decide)).2.1⟩

theorem cmdStatus_calls (env : Env) (cl : Client) (hist : List Call) (m : Model) :
    (cmdStatus env cl hist m).calls = [Call.Status] := by
  unfold cmdStatus
  split <;> rfl

theorem cmdPlay_calls_le (env : Env) (cl : Client) (hist : List Call) (m : Model)
    (args : List GoString) : (cmdPlay env cl hist m args).calls.length ≤ 1 := by
  unfold cmdPlay
  split
  · simp
  · rw [postThen_calls]; simp

theorem cmdVol_calls_le (env : Env) (cl : Client) (hist : List Call) (m : Model)
    (args : List GoString) : (cmdVol env cl hist m args).calls.length ≤ 1 := by
  unfold cmdVol
  split
  · simp
  · split
    · simp
    · split
      · simp
      · rw [postThen_calls]; simp

theorem cmdSeek_calls_le (env : Env) (cl : Client) (hist : List Call) (m : Model)
    (args : List GoString) : (cmdSeek env cl hist m args).calls.length ≤ 1 := by
  unfold cmdSeek
  split
  · simp
  · split
    · simp
    · split
      · simp
      · rw [postThen_calls]; simp

theorem cmdQueue_calls_le (env : Env) (cl : Client) (hist : List Call) (m : Model)
    (args : List GoString) : (cmdQueue env cl hist m args).calls.length ≤ 1 := by
  unfold cmdQueue
  split
  · simp
  · rw [postThen_calls]; simp

theorem cmdShuffle_calls (env : Env) (cl : Client) (hist : List Call) (m : Model) :
    (cmdShuffle env cl hist m).calls = [Call.Status] ∨
      ∃ b, (cmdShuffle env cl hist m).calls = [Call.Status, Call.Shuffle b] := by
  unfold cmdShuffle
  split
  · exact Or.inl rfl
  · split
    · exact Or.inr ⟨_, rfl⟩
    · exact Or.inr ⟨_, rfl⟩

theorem dispatch_calls_le_one (env : Env) (cl : Client) (hist : List Call) (m : Model)
    (cmd : GoString) (args : List GoString) (h : cmd ≠ str "shuffle") :
    (dispatch env cl hist m cmd args).calls.length ≤ 1 := by
  apply dispatch_cases (fun r => r.calls.length ≤ 1)
  · intro _; rw [cmdStatus_calls]; simp
  · intro _; exact cmdPlay_calls_le ..
  · intro _; rw [postThen_calls]; simp
  · intro _; rw [postThen_calls]; simp
  · intro _; rw [postThen_calls]; simp
  · intro _; exact cmdVol_calls_le ..
  · intro _; exact cmdSeek_calls_le ..
  · intro hc; exact absurd hc h
  · intro _; exact cmdQueue_calls_le ..
  · intro _; simp
  · intro _; simp
  · intro _; simp

theorem dispatch_local_no_calls (env : Env) (cl : Client) (hist : List Call) (m : Model)
    (cmd : GoString) (args : List GoString)
    (h : cmd = str "help" ∨ cmd = str "h" ∨ cmd = str "quit" ∨ cmd = str "q" ∨
      cmd ∉ commandNames) :
    (dispatch env cl hist m cmd args).calls = [] := by
  apply dispatch_cases (fun r => r.calls = [])
  · intro hc; exfalso; rcases hc with hc | hc <;> subst hc <;> exact absurd h (by decide)
  · intro hc; exfalso; subst hc; exact absurd h (by decide)
  · intro hc; exfalso; rcases hc with hc | hc <;> subst hc <;> exact absurd h (by decide)
  · intro hc; exfalso; rcases hc with hc | hc <;> subst hc <;> exact absurd h (by decide)
  · intro hc; exfalso; rcases hc with hc | hc <;> subst hc <;> exact absurd h (by decide)
  · intro hc; exfalso; subst hc; exact absurd h (by decide)
  · intro hc; exfalso; subst hc; exact absurd h (by decide)
  · intro hc; exfalso; subst hc; exact absurd h (by decide)
  · intro hc; exfalso; subst hc; exact absurd h (by decide)
  · intro _; rfl
  · intro _; rfl
  · intro _; rfl

theorem dispatch_invalid_no_calls (env : Env) (cl : Client) (hist : List Call) (m : Model)
    (cmd : GoString) (args : List GoString) (h : ValidationFails cmd args) :
    (dispatch env cl hist m cmd args).calls = [] := by
  rcases h with ⟨ha, hc | hc | hc | hc⟩ | ⟨a, rest, ha, hc, hbad⟩ | ⟨a, rest, ha, hc, hbad⟩
  · rw [hc, ha, dispatch_play]; rfl
  · rw [hc, ha, dispatch_queue]; rfl
  · rw [hc, ha, dispatch_vol]; rfl
  · rw [hc, ha, dispatch_seek]; rfl
  · rw [hc, ha, dispatch_vol]
    unfold cmdVol
    rcases hbad with hn | ⟨v, hv, hr⟩
    · simp only [hn]
    · simp only [hv]
      rw [if_pos (by omega)]
  · rw [hc, ha, dispatch_seek]
    unfold cmdSeek
    rcases hbad with hn | ⟨v, hv, hr⟩
    · simp only [hn]
    · simp only [hv]
      rw [if_pos hr]

/-- C16. No retries, one remote call per command. A blank line (zero tokens) returns the
empty string with no call and the model unchanged. For a line with first token `p0` and
arguments `args`: when `p0` lower-cased is `shuffle`, the calls of `execute` are one
`Status`, or one `Status` followed by one `Shuffle`; otherwise `execute` makes at most
one call; and it makes no call for `help`, `h`, `quit`, `q`, for a word that is not a
command name, and for every validation failure. -/
theorem One_call_per_command (env : Env) (cl : Client) (hist : List Call) (m : Model)
    (line : GoString) :
    (Fields line = [] → execute env cl hist m line = ⟨[], m, []⟩) ∧
    ∀ p0 args, Fields line = p0 :: args →
      (ToLower env.mapLower p0 = str "shuffle" →
        (execute env cl hist m line).calls = [Call.Status] ∨
        ∃ b, (execute env cl hist m line).calls = [Call.Status, Call.Shuffle b]) ∧
      (ToLower env.mapLower p0 ≠ str "shuffle" →
        (execute env cl hist m line).calls.length ≤ 1) ∧
      (ToLower env.mapLower p0 = str "help" ∨ ToLower env.mapLower p0 = str "h" ∨
        ToLower env.mapLower p0 = str "quit" ∨ ToLower env.mapLower p0 = str "q" ∨
        ToLower env.mapLower p0 ∉ commandNames →
        (execute env cl hist m line).calls = []) ∧
      (ValidationFails (ToLower env.mapLower p0) args →
        (execute env cl hist m line).calls = []) := by
  constructor
  · intro hF
    unfold execute
    rw [hF]
  · intro p0 args hF
    rw [execute_of_Fields env cl hist m line p0 args hF]
    refine ⟨fun hc => ?_, dispatch_calls_le_one env cl hist m _ args,
      dispatch_local_no_calls env cl hist m _ args,
      dispatch_invalid_no_calls env cl hist m _ args⟩
    rw [hc, dispatch_shuffle]
    exact cmdShuffle_calls ..

/-- Witness of C16: the blank line of three spaces returns the empty string with no
call; `"pause"` makes at most one call. -/
theorem One_call_per_command_witness :
    Fields (str "   ") = [] ∧
      execute plainEnv okClient [] ⟨[], 0, [], false⟩ (str "   ")
        = ⟨[], ⟨[], 0, [], false⟩, []⟩ ∧
      Fields (str "pause") = [str "pause"] ∧
      (execute plainEnv okClient [] ⟨[], 0, [], false⟩ (str "pause")).calls.length ≤ 1 :=
  ⟨by decide,
    (One_call_per_command plainEnv okClient [] ⟨[], 0, [], false⟩ (str "   ")).1 (by decide),
    by decide,
    ((One_call_per_command plainEnv okClient [] ⟨[], 0, [], false⟩ (str "pause")).2
      (str "pause") [] (by decide)).2.1 (by decide)⟩

/-! ## The quitting flag and totality of the editor -/

theorem execute_quitting_of_quitting (env : Env) (cl : Client) (hist : List Call)
    (m : Model) (line : GoString) (hq : m.quitting = true) :
    (execute env cl hist m line).m.quitting = true := by
  rcases execute_model env cl hist m line with h | h <;> rw [h]
  exact hq

theorem Update_quitting_of_quitting (env : Env) (cl : Client) (log : List Call) (m : Model)
    (msg : Msg) (r : UpdateResult) (hq : m.quitting = true)
    (h : Update env cl log m msg = some r) : r.m.quitting = true := by
  cases msg with
  | Other =>
    simp only [Update, Option.some.injEq] at h
    rw [← h]; exact hq
  | Key type runes =>
    cases type with
    | CtrlC =>
      simp only [Update, Option.some.injEq] at h
      rw [← h]
    | Enter =>
      simp only [Update] at h
      split at h
      · simp only [Option.some.injEq] at h
        rw [← h]; exact hq
      · simp only [Option.some.injEq] at h
        rw [← h]
        exact execute_quitting_of_quitting env cl log _ _ hq
    | Backspace =>
      simp only [Update] at h
      split at h
      · split at h
        · simp only [Option.some.injEq] at h
          rw [← h]; exact hq
        · exact absurd h (by simp)
      · simp only [Option.some.injEq] at h
        rw [← h]; exact hq
    | Left =>
      simp only [Update] at h
      split at h <;> simp only [Option.some.injEq] at h <;> rw [← h] <;> exact hq
    | Right =>
      simp only [Update] at h
      split at h <;> simp only [Option.some.injEq] at h <;> rw [← h] <;> exact hq
    | CtrlA =>
      simp only [Update, Option.some.injEq] at h
      rw [← h]; exact hq
    | CtrlE =>
      simp only [Update, Option.some.injEq] at h
      rw [← h]; exact hq
    | CtrlU =>
      simp only [Update] at h
      split at h
      · simp only [Option.some.injEq] at h
        rw [← h]; exact hq
      · exact absurd h (by simp)
    | CtrlK =>
      simp only [Update] at h
      split at h
      · simp only [Option.some.injEq] at h
        rw [← h]; exact hq
      · exact absurd h (by simp)
    | Runes =>
      simp only [Update] at h
      split at h
      · simp only [Option.some.injEq] at h
        rw [← h]; exact hq
      · exact absurd h (by simp)
    | Other code =>
      simp only [Update, Option.some.injEq] at h
      rw [← h]; exact hq

theorem UpdateAll_quitting_of_quitting (env : Env) (cl : Client) (msgs : List Msg) :
    ∀ (log : List Call) (m : Model) (r : Model × List Call), m.quitting = true →
      UpdateAll env cl log m msgs = some r → r.1.quitting = true := by
  induction msgs with
  | nil =>
    intro log m r hq h
    simp only [UpdateAll, Option.some.injEq] at h
    rw [← h]; exact hq
  | cons msg rest ih =>
    intro log m r hq h
    simp only [UpdateAll] at h
    cases hu : Update env cl log m msg with
    | none => rw [hu] at h; exact absurd h (by simp)
    | some u =>
      rw [hu] at h
      exact ih u.log u.m r (Update_quitting_of_quitting env cl log m msg u hq hu) h

/-- From a model with a valid cursor `Update` returns: no slice expression panics. -/
theorem Update_returns_of_Valid (env : Env) (cl : Client) (log : List Call) (m : Model)
    (msg : Msg) (h : Valid m) : ∃ r, Update env cl log m msg = some r := by
  obtain ⟨h0, h1⟩ := h
  have hto := sliceTo_of_le m.input m.cursor h0 h1
  have hfrom := sliceFrom_of_le m.input m.cursor h0 h1
  cases msg with
  | Other => exact ⟨_, rfl⟩
  | Key type runes =>
    cases type with
    | CtrlC => exact ⟨_, rfl⟩
    | Enter =>
      unfold Update
      simp only
      split <;> exact ⟨_, rfl⟩
    | Backspace =>
      unfold Update
      simp only
      split
      · rw [sliceTo_of_le m.input (m.cursor - 1) (by omega) (by omega), hfrom]
        exact ⟨_, rfl⟩
      · exact ⟨_, rfl⟩
    | Left =>
      unfold Update
      simp only
      split <;> exact ⟨_, rfl⟩
    | Right =>
      unfold Update
      simp only
      split <;> exact ⟨_, rfl⟩
    | CtrlA => exact ⟨_, rfl⟩
    | CtrlE => exact ⟨_, rfl⟩
    | CtrlU =>
      unfold Update
      simp only
      rw [hfrom]
      exact ⟨_, rfl⟩
    | CtrlK =>
      unfold Update
      simp only
      rw [hto]
      exact ⟨_, rfl⟩
    | Runes =>
      unfold Update
      simp only
      rw [hto, hfrom]
      exact ⟨_, rfl⟩
    | Other code => exact ⟨_, rfl⟩

/-- C17. `quitting` is monotonic. From a model with `quitting = true`: every model that
`Update` returns, on any message, has `quitting = true` (and from a valid cursor
`Update` does return one); `execute` on any line leaves `quitting = true`; and any
sequence of messages fed to `Update` ends with `quitting = true`. -/
theorem Quitting_monotonic (env : Env) (cl : Client) (log : List Call) (m : Model)
    (hq : m.quitting = true) :
    (∀ msg r, Update env cl log m msg = some r → r.m.quitting = true) ∧
    (Valid m → ∀ msg, ∃ r, Update env cl log m msg = some r ∧ r.m.quitting = true) ∧
    (∀ line, (execute env cl log m line).m.quitting = true) ∧
    (∀ msgs r, UpdateAll env cl log m msgs = some r → r.1.quitting = true) := by
  refine ⟨fun msg r h => Update_quitting_of_quitting env cl log m msg r hq h, ?_,
    fun line => execute_quitting_of_quitting env cl log m line hq,
    fun msgs r h => UpdateAll_quitting_of_quitting env cl msgs log m r hq h⟩
  intro hv msg
  obtain ⟨r, hr⟩ := Update_returns_of_Valid env cl log m msg hv
  exact ⟨r, hr, Update_quitting_of_quitting env cl log m msg r hq hr⟩

/-- Witness of C17: a model that is quitting, fed the keys `v`, Enter on `"v"` (an
unknown command) and Ctrl-A, is still quitting. -/
theorem Quitting_monotonic_witness :
    UpdateAll plainEnv okClient [] ⟨[], 0, [], true⟩
        [Msg.Key KeyType.Runes [118], Msg.Key KeyType.Enter [], Msg.Key KeyType.CtrlA []]
      = some (⟨[], 0, str "Unknown command: v (type 'help' for commands)", true⟩, []) ∧
    (⟨[], 0, str "Unknown command: v (type 'help' for commands)", true⟩ : Model).quitting
      = true :=
  ⟨by decide,
    (Quitting_monotonic plainEnv okClient [] ⟨[], 0, [], true⟩ rfl).2.2.2
      [Msg.Key KeyType.Runes [118], Msg.Key KeyType.Enter [], Msg.Key KeyType.CtrlA []]
      (⟨[], 0, str "Unknown command: v (type 'help' for commands)", true⟩, []) (by decide)⟩

theorem index_of_lt (s : GoString) (i : Int) (h0 : 0 ≤ i) (h1 : i < (s.length : Int)) :
    ∃ c, index s i = some c := by
  unfold index
  rw [if_pos ⟨h0, h1⟩]
  cases hg : s.get? i.toNat with
  | some c => exact ⟨c, rfl⟩
  | none =>
    rw [List.get?_eq_none] at hg
    omega

/-- C18. The line editor is total on valid states. From a model with
`0 ≤ cursor ≤ len(input)`: `Update` returns on every message and `View` returns, so
neither panics; and the slice and index expressions they evaluate are in range, namely
`input[:cursor-1]` (evaluated when `cursor > 0`), `input[cursor:]` and `input[:cursor]`
in `Update`, and `input[:cursor]`, `input[cursor]` and `input[cursor+1:]` (evaluated
when `cursor < len(input)`) in `View`. -/
theorem Editor_total (env : Env) (cl : Client) (log : List Call) (m : Model)
    (h : Valid m) :
    (∀ msg, ∃ r, Update env cl log m msg = some r) ∧
    (∃ v, View env m = some v) ∧
    (0 < m.cursor →
      sliceTo m.input (m.cursor - 1) = some (m.input.take (m.cursor - 1).toNat)) ∧
    sliceFrom m.input m.cursor = some (m.input.drop m.cursor.toNat) ∧
    sliceTo m.input m.cursor = some (m.input.take m.cursor.toNat) ∧
    (m.cursor < (m.input.length : Int) →
      (∃ c, index m.input m.cursor = some c) ∧
      sliceFrom m.input (m.cursor + 1) = some (m.input.drop (m.cursor + 1).toNat)) := by
  have hv := h
  obtain ⟨h0, h1⟩ := h
  have hto := sliceTo_of_le m.input m.cursor h0 h1
  have hfrom := sliceFrom_of_le m.input m.cursor h0 h1
  refine ⟨fun msg => Update_returns_of_Valid env cl log m msg hv, ?_,
    fun hpos => sliceTo_of_le m.input (m.cursor - 1) (by omega) (by omega), hfrom, hto,
    fun hlt => ⟨index_of_lt m.input m.cursor h0 hlt,
      sliceFrom_of_le m.input (m.cursor + 1) (by omega) (by omega)⟩⟩
  unfold View
  by_cases hq : m.quitting = true
  · rw [if_pos hq]
    exact ⟨_, rfl⟩
  · rw [if_neg hq]
    simp only
    by_cases hlt : m.cursor < (m.input.length : Int)
    · rw [if_pos hlt, hto, sliceFrom_of_le m.input (m.cursor + 1) (by omega) (by omega)]
      obtain ⟨c, hc⟩ := index_of_lt m.input m.cursor h0 hlt
      rw [hc]
      exact ⟨_, rfl⟩
    · rw [if_neg hlt]
      exact ⟨_, rfl⟩

/-- Witness of C18: the buffer `"abc"` with the cursor at 1; Backspace returns and `View`
renders the prompt and the buffer. -/
theorem Editor_total_witness :
    Valid ⟨str "abc", 1, [], false⟩ ∧
      (∃ r, Update plainEnv okClient [] ⟨str "abc", 1, [], false⟩
        (Msg.Key KeyType.Backspace []) = some r) ∧
      (∃ v, View plainEnv ⟨str "abc", 1, [], false⟩ = some v) ∧
      View plainEnv ⟨str "abc", 1, [], false⟩ = some (str "jukebox> abc") :=
  ⟨by decide,
    (Editor_total plainEnv okClient [] ⟨str "abc", 1, [], false⟩ (by decide)).1
      (Msg.Key KeyType.Backspace []),
    (Editor_total plainEnv okClient [] ⟨str "abc", 1, [], false⟩ (by decide)).2.1,
    by decide⟩

/-- C19, the failing input. On the valid buffer `"ab"` with the cursor at 1, the rune
key `é` inserts the two bytes `0xC3 0xA9` and moves the cursor to 3; Backspace then
removes the single byte `0xA9` and moves the cursor to 2. The buffer is left as the
three bytes `a 0xC3 b` with the cursor at 2, not as `"ab"` with the cursor at 1. -/
theorem Insert_Backspace_multibyte :
    Valid ⟨str "ab", 1, [], false⟩ ∧
      runesToString [233] = [0xC3, 0xA9] ∧
      Update plainEnv okClient [] ⟨str "ab", 1, [], false⟩ (Msg.Key KeyType.Runes [233])
        = some ⟨⟨[97, 0xC3, 0xA9, 98], 3, [], false⟩, Cmd.nil, [], none⟩ ∧
      Update plainEnv okClient [] ⟨[97, 0xC3, 0xA9, 98], 3, [], false⟩
          (Msg.Key KeyType.Backspace [])
        = some ⟨⟨[97, 0xC3, 98], 2, [], false⟩, Cmd.nil, [], none⟩ ∧
      UpdateAll plainEnv okClient [] ⟨str "ab", 1, [], false⟩
          [Msg.Key KeyType.Runes [233], Msg.Key KeyType.Backspace []]
        = some (⟨[97, 0xC3, 98], 2, [], false⟩, []) ∧
      ([97, 0xC3, 98] : GoString) ≠ str "ab" ∧ (2 : Int) ≠ 1 := by
  decide

theorem runesToString_ascii (r : Int) (hr0 : 0 ≤ r) (hr1 : r ≤ 0x7F) :
    runesToString [r] = [r.toNat] := by
  have h1 : ¬ (r < 0 ∨ 0x10FFFF < r ∨ (0xD800 ≤ r ∧ r ≤ 0xDFFF)) := by omega
  have h2 : r.toNat ≤ 0x7F := by omega
  simp only [runesToString, encodeRune, List.append_nil, if_neg h1, encodeNat, if_pos h2]

theorem take_splice (a : GoString) (x : Nat) (b : GoString) :
    List.take a.length (a ++ [x] ++ b) = a := by
  rw [List.append_assoc, List.take_left']
  rfl

theorem drop_splice (a : GoString) (x : Nat) (b : GoString) :
    List.drop (a.length + 1) (a ++ [x] ++ b) = b := by
  have : (a ++ [x]).length = a.length + 1 := by simp
  rw [← this, List.drop_left']
  rfl

/-- For a rune key that inserts a single one-byte (ASCII) character, Insert followed by
Backspace does restore the buffer and the cursor. -/
theorem Insert_Backspace_ascii (env : Env) (cl : Client) (log : List Call) (m : Model)
    (r : Int) (runes : List Rune) (h : Valid m) (hr0 : 0 ≤ r) (hr1 : r ≤ 0x7F) :
    UpdateAll env cl log m [Msg.Key KeyType.Runes [r], Msg.Key KeyType.Backspace runes]
      = some (m, log) := by
  obtain ⟨h0, h1⟩ := h
  have hlen : (List.take m.cursor.toNat m.input).length = m.cursor.toNat := by
    rw [List.length_take]
    omega
  simp only [UpdateAll, Update, runesToString_ascii r hr0 hr1,
    sliceTo_of_le m.input m.cursor h0 h1, sliceFrom_of_le m.input m.cursor h0 h1,
    List.length_singleton]
  rw [if_pos (by omega)]
  have e1 : m.cursor + ((1 : Nat) : Int) - 1 = m.cursor := by omega
  rw [e1]
  rw [sliceTo_of_le _ m.cursor h0 (by simp; omega),
    sliceFrom_of_le _ (m.cursor + ((1 : Nat) : Int)) (by omega) (by simp; omega)]
  simp only
  have e2 : (m.cursor + ((1 : Nat) : Int)).toNat
      = (List.take m.cursor.toNat m.input).length + 1 := by
    omega
  have e3 : m.cursor.toNat = (List.take m.cursor.toNat m.input).length := hlen.symm
  rw [e2]
  conv_lhs =>
    arg 1; arg 1; arg 1; arg 1; arg 1
    rw [e3]
  rw [take_splice, drop_splice, List.take_append_drop]

/-! ## White space around a line -/

theorem decodeRune_ascii (c : Nat) (t : GoString) (h : c < 0x80) :
    decodeRune (c :: t) = ((c : Int), 1) := by
  unfold decodeRune
  simp only [if_pos h]

theorem decodeRune_invalid_lead (c : Nat) (t : GoString) (h1 : ¬ c < 0x80)
    (h2 : c < 0xC2 ∨ 0xF4 < c) : decodeRune (c :: t) = (RuneError, 1) := by
  unfold decodeRune
  simp only [if_neg h1, if_pos h2]

theorem decodeRune_lead (s0 : Nat) (h1 : ¬ s0 < 0x80) (h2 : ¬ (s0 < 0xC2 ∨ 0xF4 < s0)) :
    ∃ sz lo hi, 2 ≤ sz ∧ sz ≤ 4 ∧ 0x80 ≤ lo ∧ hi ≤ 0xBF ∧
      ∀ t, decodeRune (s0 :: t) = decodeTail s0 sz lo hi t := by
  refine ⟨if s0 < 0xE0 then 2 else if s0 < 0xF0 then 3 else 4,
    if s0 = 0xE0 then 0xA0 else if s0 = 0xF0 then 0x90 else 0x80,
    if s0 = 0xED then 0x9F else if s0 = 0xF4 then 0x8F else 0xBF, ?_, ?_, ?_, ?_, ?_⟩
  · split_ifs <;> omega
  · split_ifs <;> omega
  · split_ifs <;> omega
  · split_ifs <;> omega
  · intro t
    unfold decodeRune decodeTail
    simp only [if_neg h1, if_neg h2]
    rfl

theorem decodeTail_width_pos (s0 sz lo hi : Nat) (t : GoString) :
    1 ≤ (decodeTail s0 sz lo hi t).2 := by
  unfold decodeTail
  split
  · simp
  · split
    · simp
    · split
      · simp
      · split
        · simp
        · split
          · simp
          · split
            · simp
            · split
              · simp
              · split
                · simp
                · split <;> simp

theorem decodeTail_width_le (s0 sz lo hi : Nat) (t : GoString) :
    (decodeTail s0 sz lo hi t).2 ≤ (s0 :: t).length := by
  unfold decodeTail
  split
  · simp
  · split
    · simp
    · split
      · simp
      · split
        · simp
        · split
          · simp
          · split
            · simp
            · split
              · simp
              · split
                · simp
                · split <;> simp

theorem decodeRune_width_pos (s : GoString) (h : s ≠ []) : 1 ≤ (decodeRune s).2 := by
  cases s with
  | nil => exact absurd rfl h
  | cons s0 t =>
    by_cases h1 : s0 < 0x80
    · rw [decodeRune_ascii s0 t h1]
    by_cases h2 : s0 < 0xC2 ∨ 0xF4 < s0
    · rw [decodeRune_invalid_lead s0 t h1 h2]
    obtain ⟨sz, lo, hi, _, _, _, _, hd⟩ := decodeRune_lead s0 h1 h2
    rw [hd]
    exact decodeTail_width_pos ..

theorem decodeRune_width_le (s : GoString) : (decodeRune s).2 ≤ s.length := by
  cases s with
  | nil => simp [decodeRune]
  | cons s0 t =>
    by_cases h1 : s0 < 0x80
    · rw [decodeRune_ascii s0 t h1]; simp
    by_cases h2 : s0 < 0xC2 ∨ 0xF4 < s0
    · rw [decodeRune_invalid_lead s0 t h1 h2]; simp
    obtain ⟨sz, lo, hi, _, _, _, _, hd⟩ := decodeRune_lead s0 h1 h2
    rw [hd]
    exact decodeTail_width_le ..

theorem decodeTail_append (s0 sz lo hi : Nat) (t : GoString) (z0 : Nat) (zs : GoString)
    (hsz : 2 ≤ sz) (hsz4 : sz ≤ 4) (hlo : 0x80 ≤ lo) (hhi : hi ≤ 0xBF) (hz : ¬ (0x80 ≤ z0 ∧ z0 ≤ 0xBF)) :
    decodeTail s0 sz lo hi (t ++ z0 :: zs) = decodeTail s0 sz lo hi t := by
  have hz1 : z0 < lo ∨ hi < z0 := by omega
  have hz2 : z0 < 0x80 ∨ 0xBF < z0 := by omega
  cases t with
  | nil =>
    unfold decodeTail
    simp only [List.nil_append, List.length_cons, List.length_nil, if_pos hz1]
    split_ifs <;> rfl
  | cons s1 t1 =>
    cases t1 with
    | nil =>
      unfold decodeTail
      simp only [List.cons_append, List.nil_append, List.length_cons, List.length_nil,
        if_pos hz2]
      split_ifs <;> first | rfl | omega
    | cons s2 t2 =>
      cases t2 with
      | nil =>
        unfold decodeTail
        simp only [List.cons_append, List.nil_append, List.length_cons, List.length_nil,
          if_pos hz2]
        split_ifs <;> first | rfl | omega
      | cons s3 t3 =>
        unfold decodeTail
        simp only [List.cons_append, List.length_cons, List.length_append]
        split_ifs <;> first | rfl | omega


theorem decodeRune_append (p z : GoString) (hp : p ≠ []) (hz : StartsAtRune z) :
    decodeRune (p ++ z) = decodeRune p := by
  cases z with
  | nil => rw [List.append_nil]
  | cons z0 zs =>
    have hz0 := hz z0 zs rfl
    cases p with
    | nil => exact absurd rfl hp
    | cons s0 t =>
      rw [List.cons_append]
      by_cases h1 : s0 < 0x80
      · rw [decodeRune_ascii s0 _ h1, decodeRune_ascii s0 _ h1]
      by_cases h2 : s0 < 0xC2 ∨ 0xF4 < s0
      · rw [decodeRune_invalid_lead s0 _ h1 h2, decodeRune_invalid_lead s0 _ h1 h2]
      obtain ⟨sz, lo, hi, hsz, hsz4, hlo, hhi, hd⟩ := decodeRune_lead s0 h1 h2
      rw [hd, hd]
      exact decodeTail_append s0 sz lo hi t z0 zs hsz hsz4 hlo hhi hz0

theorem isSpace_natCast_ascii : ∀ c : Nat, c < 0x80 → IsSpace (c : Int) = asciiSpace c := by
  decide

theorem isSpace_RuneError : IsSpace RuneError = false := by decide

theorem closeField_none (rest : List GoString) : closeField none rest = rest := rfl

theorem fieldsFuncAux_nil (f : Rune → Bool) (n : Nat) (cur : Option GoString) :
    fieldsFuncAux f n [] cur = closeField cur [] := by
  cases n <;> rfl

theorem fieldsFuncAux_cons (f : Rune → Bool) (n : Nat) (c : Nat) (t : GoString)
    (cur : Option GoString) :
    fieldsFuncAux f (n + 1) (c :: t) cur
      = if f (decodeRune (c :: t)).1 then
          closeField cur (fieldsFuncAux f n ((c :: t).drop (decodeRune (c :: t)).2) none)
        else fieldsFuncAux f n ((c :: t).drop (decodeRune (c :: t)).2)
          (some (cur.getD [] ++ (c :: t).take (decodeRune (c :: t)).2)) := by
  rfl

/-- The fuel of `fieldsFuncAux` does not matter once it covers the length. -/
theorem fieldsFuncAux_fuel (f : Rune → Bool) (n : Nat) :
    ∀ (k : Nat) (s : GoString) (cur : Option GoString), s.length ≤ n → s.length ≤ k →
      fieldsFuncAux f n s cur = fieldsFuncAux f k s cur := by
  induction n with
  | zero =>
    intro k s cur hn _
    have hs : s = [] := List.length_eq_zero.mp (by omega)
    subst hs
    rw [fieldsFuncAux_nil, fieldsFuncAux_nil]
  | succ n ih =>
    intro k s cur hn hk
    cases s with
    | nil => rw [fieldsFuncAux_nil, fieldsFuncAux_nil]
    | cons c t =>
      cases k with
      | zero => simp at hk
      | succ k =>
        have hw := decodeRune_width_pos (c :: t) (by simp)
        have hlen : ((c :: t).drop (decodeRune (c :: t)).2).length ≤ t.length := by
          rw [List.length_drop, List.length_cons]
          omega
        simp only [List.length_cons] at hn hk
        rw [fieldsFuncAux_cons, fieldsFuncAux_cons,
          ih k _ none (by omega) (by omega), ih k _ (some _) (by omega) (by omega)]

theorem spaceFields_eq (s : GoString) (cur : Option GoString) (n : Nat) (h : s.length ≤ n) :
    fieldsFuncAux IsSpace n s cur = spaceFields s cur :=
  fieldsFuncAux_fuel IsSpace n s.length s cur h (le_refl _)

theorem fieldsASCII_eq (s : GoString) :
    ∀ cur, (∀ c ∈ s, c < 0x80) → fieldsASCII s cur = spaceFields s cur := by
  induction s with
  | nil => intro cur _; rfl
  | cons c t ih =>
    intro cur h
    have hc : c < 0x80 := h c (List.mem_cons_self c t)
    have ht : ∀ x ∈ t, x < 0x80 := fun x hx => h x (List.mem_cons_of_mem c hx)
    unfold spaceFields
    rw [List.length_cons, fieldsFuncAux_cons, decodeRune_ascii c t hc]
    simp only [List.drop_succ_cons, List.drop_zero, List.take_succ_cons, List.take_zero,
      isSpace_natCast_ascii c hc]
    unfold fieldsASCII
    rw [ih none ht, ih (some _) ht]
    rfl

/-- `strings.Fields` is `strings.FieldsFunc` with `unicode.IsSpace` on every string: the
ASCII fast path computes the same fields. -/
theorem Fields_eq_spaceFields (s : GoString) : Fields s = spaceFields s none := by
  unfold Fields
  split
  · rename_i h
    apply fieldsASCII_eq
    intro c hc
    have := List.all_eq_true.mp h c hc
    simpa using this
  · rfl

theorem SpaceChunk_startsAtRune (z : GoString) (h : SpaceChunk z) : StartsAtRune z := by
  intro z0 zs hz hcont
  subst hz
  obtain ⟨_, hsp, _⟩ := h
  rw [decodeRune_invalid_lead z0 zs (by omega) (Or.inl (by omega)), isSpace_RuneError] at hsp
  exact absurd hsp (by simp)

theorem StartsAtRune_append (z rest : GoString) (hz : z ≠ []) (h : StartsAtRune z) :
    StartsAtRune (z ++ rest) := by
  intro z0 zs hzz
  cases z with
  | nil => exact absurd rfl hz
  | cons a t =>
    rw [List.cons_append] at hzz
    simp only [List.cons.injEq] at hzz
    rw [← hzz.1]
    exact h a t rfl

theorem StartsAtRune_nil : StartsAtRune [] := by
  intro z0 zs h
  exact absurd h (by simp)

/-- A white space rune at the very end of a string does not change its fields. -/
theorem fieldsFuncAux_append_chunk (z : GoString) (hz : SpaceChunk z) (n : Nat) :
    ∀ (p : GoString) (cur : Option GoString), (p ++ z).length ≤ n →
      fieldsFuncAux IsSpace n (p ++ z) cur = fieldsFuncAux IsSpace n p cur := by
  have hstart := SpaceChunk_startsAtRune z hz
  obtain ⟨hne, hsp, hw⟩ := hz
  induction n with
  | zero =>
    intro p cur hlen
    have : z = [] := by
      apply List.length_eq_zero.mp
      rw [List.length_append] at hlen
      omega
    exact absurd this hne
  | succ n ih =>
    intro p cur hlen
    cases p with
    | nil =>
      rw [List.nil_append, fieldsFuncAux_nil]
      cases z with
      | nil => exact absurd rfl hne
      | cons c t =>
        rw [fieldsFuncAux_cons, if_pos hsp, hw, List.drop_length, fieldsFuncAux_nil]
        rfl
    | cons c t =>
      have hdec : decodeRune (c :: t ++ z) = decodeRune (c :: t) :=
        decodeRune_append (c :: t) z (by simp) hstart
      have hle := decodeRune_width_le (c :: t)
      have hpos := decodeRune_width_pos (c :: t) (by simp)
      have hlen2 : (List.drop (decodeRune (c :: t)).2 (c :: t) ++ z).length ≤ n := by
        rw [List.length_append, List.length_drop]
        rw [List.length_append] at hlen
        omega
      rw [List.cons_append] at hdec ⊢
      rw [fieldsFuncAux_cons, fieldsFuncAux_cons, hdec]
      rw [← List.cons_append, List.drop_append_of_le_length hle,
        List.take_append_of_le_length hle, ih _ none hlen2, ih _ (some _) hlen2]

theorem spaceFields_append_chunk (p z : GoString) (hz : SpaceChunk z) :
    spaceFields (p ++ z) none = spaceFields p none := by
  unfold spaceFields
  rw [fieldsFuncAux_append_chunk z hz _ p none (le_refl _)]
  exact spaceFields_eq p none _ (by rw [List.length_append]; omega)

theorem spaceFields_drop_space (s : GoString) (hs : s ≠ [])
    (h : IsSpace (decodeRune s).1 = true) :
    spaceFields (s.drop (decodeRune s).2) none = spaceFields s none := by
  cases s with
  | nil => exact absurd rfl hs
  | cons c t =>
    have hpos := decodeRune_width_pos (c :: t) (by simp)
    conv_rhs => unfold spaceFields
    rw [List.length_cons, fieldsFuncAux_cons, if_pos h, closeField_none]
    exact (spaceFields_eq _ none _ (by rw [List.length_drop, List.length_cons]; omega)).symm

theorem indexFuncAux_cons (f : Rune → Bool) (truth : Bool) (n : Nat) (c : Nat) (t : GoString)
    (i : Nat) :
    indexFuncAux f truth (n + 1) (c :: t) i
      = if f (decodeRune (c :: t)).1 = truth then (i : Int)
        else indexFuncAux f truth n ((c :: t).drop (decodeRune (c :: t)).2)
          (i + (decodeRune (c :: t)).2) := by
  rfl

theorem indexFuncAux_spec (n : Nat) :
    ∀ (s : GoString) (i : Nat), s.length ≤ n →
      (indexFuncAux IsSpace false n s i = -1 ∧ spaceFields s none = []) ∨
      ∃ k : Nat, indexFuncAux IsSpace false n s i = ((i + k : Nat) : Int) ∧
        spaceFields (s.drop k) none = spaceFields s none := by
  induction n with
  | zero =>
    intro s i hlen
    have hs : s = [] := List.length_eq_zero.mp (by omega)
    subst hs
    exact Or.inl ⟨rfl, rfl⟩
  | succ n ih =>
    intro s i hlen
    cases s with
    | nil => exact Or.inl ⟨rfl, rfl⟩
    | cons c t =>
      have hpos := decodeRune_width_pos (c :: t) (by simp)
      rw [indexFuncAux_cons]
      by_cases hsp : IsSpace (decodeRune (c :: t)).1 = false
      · rw [if_pos hsp]
        exact Or.inr ⟨0, rfl, rfl⟩
      · rw [if_neg hsp]
        have hsp2 : IsSpace (decodeRune (c :: t)).1 = true := by
          simpa using hsp
        have hdrop := spaceFields_drop_space (c :: t) (by simp) hsp2
        have hlen2 : ((c :: t).drop (decodeRune (c :: t)).2).length ≤ n := by
          rw [List.length_drop]
          simp only [List.length_cons] at hlen ⊢
          omega
        rcases ih ((c :: t).drop (decodeRune (c :: t)).2) (i + (decodeRune (c :: t)).2) hlen2
          with ⟨h1, h2⟩ | ⟨k, h1, h2⟩
        · exact Or.inl ⟨h1, by rw [← hdrop, h2]⟩
        · refine Or.inr ⟨(decodeRune (c :: t)).2 + k, ?_, ?_⟩
          · rw [h1, Nat.add_assoc]
          · rw [← hdrop, ← h2, List.drop_drop]

theorem spaceFields_TrimLeftFunc (s : GoString) :
    spaceFields (TrimLeftFunc s IsSpace) none = spaceFields s none := by
  unfold TrimLeftFunc indexFunc
  simp only
  rcases indexFuncAux_spec s.length s 0 (le_refl _) with ⟨h1, h2⟩ | ⟨k, h1, h2⟩
  · rw [h1, if_pos rfl, h2]
    rfl
  · rw [h1, if_neg (by omega)]
    simp only [Nat.zero_add, Int.toNat_ofNat]
    exact h2

theorem scanBack_le (s : GoString) (lim : Int) :
    ∀ (fuel : Nat) (start : Int), scanBack s lim fuel start ≤ start := by
  intro fuel
  induction fuel with
  | zero => intro start; exact le_refl _
  | succ fuel ih =>
    intro start
    unfold scanBack
    split
    · split
      · exact le_refl _
      · have := ih (start - 1)
        omega
    · exact le_refl _

theorem drop_length_sub_one_eq (t : GoString) (ht : t ≠ []) :
    t.drop (t.length - 1) = [t.getD (t.length - 1) 0] := by
  rcases List.eq_nil_or_concat t with h | ⟨init, x, h⟩
  · exact absurd h ht
  · subst h
    simp [List.getD_eq_getElem?_getD]

/-- What `utf8.DecodeLastRuneInString` returns on a non-empty string: either the error
rune with width 1, or the forward decoding of the last `width` bytes. -/
theorem decodeLastRune_spec (t : GoString) (ht : t ≠ []) :
    ((decodeLastRune t).2 = 1 ∧ (decodeLastRune t).1 = RuneError) ∨
    (1 ≤ (decodeLastRune t).2 ∧ (decodeLastRune t).2 ≤ t.length ∧
      decodeRune (t.drop (t.length - (decodeLastRune t).2)) = decodeLastRune t) := by
  have hlen : 1 ≤ t.length := by
    cases t with
    | nil => exact absurd rfl ht
    | cons c r => simp
  unfold decodeLastRune
  rw [if_neg (by omega)]
  simp only
  by_cases hlast : t.getD (t.length - 1) 0 < 0x80
  · rw [if_pos hlast]
    refine Or.inr ⟨le_refl _, hlen, ?_⟩
    simp only
    rw [drop_length_sub_one_eq t ht, decodeRune_ascii _ _ hlast]
  · rw [if_neg hlast]
    generalize hst0 : scanBack t (if (t.length : Int) - 4 < 0 then 0 else (t.length : Int) - 4) 4
      ((t.length : Int) - 2) = start0
    have hle : start0 ≤ (t.length : Int) - 2 := by
      rw [← hst0]
      exact scanBack_le ..
    generalize hst : (if start0 < 0 then 0 else start0.toNat) = start
    have hstart : start < t.length := by
      rw [← hst]
      split <;> omega
    by_cases hfit : start + (decodeRune (t.drop start)).2 ≠ t.length
    · rw [if_pos hfit]
      exact Or.inl ⟨rfl, rfl⟩
    · rw [if_neg hfit]
      have hfit2 : start + (decodeRune (t.drop start)).2 = t.length := by omega
      have hne : t.drop start ≠ [] := by
        intro h
        have := congrArg List.length h
        rw [List.length_drop] at this
        simp only [List.length_nil] at this
        omega
      have hpos := decodeRune_width_pos _ hne
      refine Or.inr ⟨hpos, by omega, ?_⟩
      have : t.length - (decodeRune (t.drop start)).2 = start := by omega
      rw [this]

theorem TrimRightFunc_eq (s : GoString) (f : Rune → Bool) :
    TrimRightFunc s f = trimRightAt s (lastIndexFunc f false s) := rfl

theorem lastIndexFuncAux_succ (f : Rune → Bool) (truth : Bool) (s : GoString) (n i : Nat) :
    lastIndexFuncAux f truth s (n + 1) i
      = if i = 0 then -1
        else if f (decodeLastRune (s.take i)).1 = truth then
          ((i - (decodeLastRune (s.take i)).2 : Nat) : Int)
        else lastIndexFuncAux f truth s n (i - (decodeLastRune (s.take i)).2) := by
  rfl

theorem drop_eq_drop_take_append (s : GoString) (j i : Nat) (hji : j ≤ i)
    (hi : i ≤ s.length) : s.drop j = (s.take i).drop j ++ s.drop i := by
  have h := List.take_append_drop i s
  conv_lhs => rw [← h]
  rw [List.drop_append_of_le_length (by rw [List.length_take]; omega)]

theorem take_eq_take_append (s : GoString) (j i : Nat) (hji : j ≤ i) :
    s.take i = s.take j ++ (s.take i).drop j := by
  have h := List.take_append_drop j (s.take i)
  rw [List.take_take, Nat.min_eq_left hji] at h
  exact h.symm

theorem getD_of_drop_eq_cons (s : GoString) (j : Nat) (c0 : Nat) (r : GoString)
    (h : s.drop j = c0 :: r) : s.getD j 0 = c0 := by
  have h1 : (s.drop j).head? = some c0 := by rw [h]; rfl
  rw [List.head?_drop] at h1
  rw [List.getD_eq_getElem?_getD, h1]
  rfl

theorem trimRightAt_neg_one (s : GoString) : trimRightAt s (-1) = [] := by
  unfold trimRightAt
  rw [if_neg (by omega)]
  rfl

/-- The backward loop of `strings.TrimRightFunc` keeps the fields: started at offset `i`
of `s`, where the bytes from `i` on are white space runes already passed, it ends with a
slice of `s` that has the fields of `s`. -/
theorem lastIndexFuncAux_spec (s : GoString) (n : Nat) :
    ∀ i : Nat, i ≤ n → i ≤ s.length → StartsAtRune (s.drop i) →
      spaceFields (s.take i) none = spaceFields s none →
      spaceFields (trimRightAt s (lastIndexFuncAux IsSpace false s n i)) none
        = spaceFields s none := by
  induction n with
  | zero =>
    intro i hin _ _ hf
    have hi : i = 0 := by omega
    subst hi
    have : lastIndexFuncAux IsSpace false s 0 0 = -1 := rfl
    rw [this, trimRightAt_neg_one]
    simpa using hf
  | succ n ih =>
    intro i hin hlen hstart hf
    rw [lastIndexFuncAux_succ]
    by_cases hi0 : i = 0
    · subst hi0
      rw [if_pos rfl, trimRightAt_neg_one]
      simpa using hf
    rw [if_neg hi0]
    have htlen : (s.take i).length = i := by
      rw [List.length_take]; omega
    have htne : s.take i ≠ [] := by
      intro h
      rw [h] at htlen
      simp only [List.length_nil] at htlen
      omega
    have hspec := decodeLastRune_spec (s.take i) htne
    rw [htlen] at hspec
    generalize hd : decodeLastRune (s.take i) = d at hspec ⊢
    have hw : 1 ≤ d.2 ∧ d.2 ≤ i := by
      rcases hspec with ⟨h1, _⟩ | ⟨h1, h2, _⟩
      · omega
      · exact ⟨h1, h2⟩
    have hclen : ((s.take i).drop (i - d.2)).length = d.2 := by
      rw [List.length_drop, htlen]; omega
    have hcne : (s.take i).drop (i - d.2) ≠ [] := by
      intro h
      rw [h] at hclen
      simp only [List.length_nil] at hclen
      omega
    have hsplit := drop_eq_drop_take_append s (i - d.2) i (by omega) hlen
    have hdec : decodeRune (s.drop (i - d.2)) = decodeRune ((s.take i).drop (i - d.2)) := by
      rw [hsplit]
      exact decodeRune_append _ _ hcne hstart
    by_cases hsp : IsSpace d.1 = false
    · rw [if_pos hsp]
      have hres : trimRightAt s ((i - d.2 : Nat) : Int) = s.take i := by
        unfold trimRightAt
        simp only [Int.toNat_ofNat]
        by_cases hhi : 0x80 ≤ s.getD (i - d.2) 0
        · rw [if_pos ⟨by omega, hhi⟩, hdec]
          have hwid : (decodeRune ((s.take i).drop (i - d.2))).2 = d.2 := by
            rcases hspec with ⟨h1, _⟩ | ⟨_, _, h3⟩
            · have h4 := decodeRune_width_pos _ hcne
              have h5 := decodeRune_width_le ((s.take i).drop (i - d.2))
              omega
            · rw [h3]
          rw [hwid]
          congr 1
          omega
        · rw [if_neg (fun h => hhi h.2)]
          have hd1 : d.2 = 1 := by
            rcases hspec with ⟨h1, _⟩ | ⟨_, _, h3⟩
            · exact h1
            · cases hch : (s.take i).drop (i - d.2) with
              | nil => exact absurd hch hcne
              | cons c0 r =>
                have hc0 : s.getD (i - d.2) 0 = c0 :=
                  getD_of_drop_eq_cons s _ c0 (r ++ s.drop i) (by rw [hsplit, hch]; rfl)
                rw [hch, decodeRune_ascii c0 r (by omega)] at h3
                rw [← h3]
          congr 1
          have : (((i - d.2 : Nat) : Int) + 1).toNat = i - d.2 + 1 := by omega
          omega
      rw [hres]
      exact hf
    · rw [if_neg hsp]
      have hsp2 : IsSpace d.1 = true := by simpa using hsp
      have hchunk : SpaceChunk ((s.take i).drop (i - d.2)) := by
        rcases hspec with ⟨_, h2⟩ | ⟨_, _, h3⟩
        · rw [h2, isSpace_RuneError] at hsp2
          exact absurd hsp2 (by simp)
        · exact ⟨hcne, by rw [h3]; exact hsp2, by rw [h3, hclen]⟩
      apply ih (i - d.2) (by omega) (by omega)
      · rw [hsplit]
        exact StartsAtRune_append _ _ hcne (SpaceChunk_startsAtRune _ hchunk)
      · rw [← hf, take_eq_take_append s (i - d.2) i (by omega)]
        exact (spaceFields_append_chunk _ _ hchunk).symm

theorem spaceFields_TrimRightFunc (s : GoString) :
    spaceFields (TrimRightFunc s IsSpace) none = spaceFields s none := by
  rw [TrimRightFunc_eq]
  unfold lastIndexFunc
  apply lastIndexFuncAux_spec s s.length s.length (le_refl _) (le_refl _)
  · rw [List.drop_length]
    exact StartsAtRune_nil
  · rw [List.take_length]

theorem spaceFields_TrimFunc (s : GoString) :
    spaceFields (TrimFunc s IsSpace) none = spaceFields s none := by
  unfold TrimFunc
  rw [spaceFields_TrimRightFunc, spaceFields_TrimLeftFunc]

theorem SpaceChunk_ascii (c : Nat) (h8 : c < 0x80) (hc : asciiSpace c = true) :
    SpaceChunk [c] := by
  refine ⟨by simp, ?_, ?_⟩
  · rw [decodeRune_ascii c [] h8, isSpace_natCast_ascii c h8]
    exact hc
  · rw [decodeRune_ascii c [] h8]
    rfl

theorem spaceFields_trimSpaceEnd (rev : GoString) :
    spaceFields (trimSpaceEnd rev) none = spaceFields rev.reverse none := by
  induction rev with
  | nil => rfl
  | cons c rev ih =>
    unfold trimSpaceEnd
    by_cases h8 : 0x80 ≤ c
    · rw [if_pos h8]
      exact spaceFields_TrimRightFunc _
    · rw [if_neg h8]
      by_cases hc : asciiSpace c = true
      · rw [if_pos hc, ih, List.reverse_cons]
        exact (spaceFields_append_chunk _ _ (SpaceChunk_ascii c (by omega) hc)).symm
      · rw [if_neg hc]

theorem spaceFields_TrimSpace (s : GoString) :
    spaceFields (TrimSpace s) none = spaceFields s none := by
  induction s with
  | nil => rfl
  | cons c s ih =>
    unfold TrimSpace
    by_cases h8 : 0x80 ≤ c
    · rw [if_pos h8]
      exact spaceFields_TrimFunc _
    · rw [if_neg h8]
      by_cases hc : asciiSpace c = true
      · rw [if_pos hc, ih]
        have h := spaceFields_drop_space (c :: s) (by simp)
          (by rw [decodeRune_ascii c s (by omega), isSpace_natCast_ascii c (by omega)]; exact hc)
        rw [decodeRune_ascii c s (by omega)] at h
        exact h
      · rw [if_neg hc, spaceFields_trimSpaceEnd, List.reverse_reverse]

/-- Trimming white space around a line does not change its fields. -/
theorem Fields_TrimSpace (s : GoString) : Fields (TrimSpace s) = Fields s := by
  rw [Fields_eq_spaceFields, Fields_eq_spaceFields, spaceFields_TrimSpace]

/-- C20. The dispatcher is insensitive to surrounding white space: for every string `s`
and every client, `execute` on `s` with its leading and trailing white space trimmed and
`execute` on `s` return the same result string, leave the same model (`quitting`
included) and make the same calls on the client. Hence what `Update` does on Enter with
a non-blank buffer is what handing the untrimmed buffer to `execute` would have done. -/
theorem execute_TrimSpace (env : Env) (cl : Client) (hist : List Call) (m : Model)
    (s : GoString) :
    execute env cl hist m (TrimSpace s) = execute env cl hist m s ∧
    ∀ runes, TrimSpace m.input ≠ [] →
      ∃ r, Update env cl hist m (Msg.Key KeyType.Enter runes) = some r ∧
        r.m.output = (execute env cl hist ⟨[], 0, m.output, m.quitting⟩ m.input).out ∧
        r.m.quitting
          = (execute env cl hist ⟨[], 0, m.output, m.quitting⟩ m.input).m.quitting ∧
        r.log = hist ++ (execute env cl hist ⟨[], 0, m.output, m.quitting⟩ m.input).calls := by
  have key : ∀ (m0 : Model) (t : GoString),
      execute env cl hist m0 (TrimSpace t) = execute env cl hist m0 t := by
    intro m0 t
    unfold execute
    rw [Fields_TrimSpace]
  refine ⟨key m s, fun runes hne => ?_⟩
  unfold Update
  simp only
  rw [if_neg hne, key]
  exact ⟨_, rfl, rfl, rfl, rfl⟩

/-- Witness of C20: `"  vol 50  "` and its trimmed form `"vol 50"` dispatch alike. -/
theorem execute_TrimSpace_witness :
    TrimSpace (str "  vol 50  ") = str "vol 50" ∧
      execute plainEnv okClient [] ⟨[], 0, [], false⟩ (TrimSpace (str "  vol 50  "))
        = execute plainEnv okClient [] ⟨[], 0, [], false⟩ (str "  vol 50  ") :=
  ⟨by decide, (execute_TrimSpace plainEnv okClient [] ⟨[], 0, [], false⟩ (str "  vol 50  ")).1⟩

theorem dispatch_quit (env : Env) (cl : Client) (hist : List Call) (m : Model)
    (cmd : GoString) (args : List GoString) (h : cmd = str "quit" ∨ cmd = str "q") :
    dispatch env cl hist m cmd args = ⟨str "Bye!", { m with quitting := true }, []⟩ := by
  unfold dispatch
  rcases h with h | h <;> subst h <;>
    rw [if_neg (by decide), if_neg (by decide), if_neg (by decide), if_neg (by decide),
      if_neg (by decide), if_neg (by decide), if_neg (by decide), if_neg (by decide),
      if_neg (by decide), if_neg (by decide), if_pos (by decide)]

/-- C12. `quit`: for a line whose first token, lower-cased, is `quit` or `q`, whatever
arguments follow, `execute` returns exactly `"Bye!"`, sets `quitting` to true and makes
no call on the client; and `Update` on Enter with that line in the buffer returns the
quit command, with `quitting` set and `"Bye!"` as output. -/
theorem Quit_spec (env : Env) (cl : Client) (hist : List Call) (m : Model)
    (line p0 : GoString) (args : List GoString) (hF : Fields line = p0 :: args)
    (hc : ToLower env.mapLower p0 = str "quit" ∨ ToLower env.mapLower p0 = str "q") :
    execute env cl hist m line = ⟨str "Bye!", { m with quitting := true }, []⟩ ∧
    ∀ (cursor : Int) (runes : List Rune),
      ∃ r, Update env cl hist ⟨line, cursor, m.output, m.quitting⟩
          (Msg.Key KeyType.Enter runes) = some r ∧
        r.cmd = Cmd.Quit ∧ r.m.quitting = true ∧ r.m.output = str "Bye!" ∧ r.log = hist := by
  have hex : ∀ m0 : Model,
      execute env cl hist m0 line = ⟨str "Bye!", { m0 with quitting := true }, []⟩ := by
    intro m0
    rw [execute_of_Fields env cl hist m0 line p0 args hF]
    exact dispatch_quit env cl hist m0 _ args hc
  refine ⟨hex m, fun cursor runes => ?_⟩
  have hne : TrimSpace line ≠ [] := by
    intro h
    have h2 := Fields_TrimSpace line
    have h3 : Fields ([] : GoString) = [] := by decide
    rw [h, hF, h3] at h2
    exact absurd h2 (by simp)
  have htrim : ∀ m0 : Model,
      execute env cl hist m0 (TrimSpace line) = execute env cl hist m0 line := by
    intro m0
    unfold execute
    rw [Fields_TrimSpace]
  unfold Update
  simp only
  rw [if_neg hne, htrim, hex]
  exact ⟨_, rfl, rfl, rfl, rfl, by simp⟩

/-- Witness of C12: the line `"Q now"`. -/
theorem Quit_spec_witness :
    Fields (str "Q now") = [str "Q", str "now"] ∧
      ToLower plainEnv.mapLower (str "Q") = str "q" ∧
      execute plainEnv okClient [] ⟨[], 0, [], false⟩ (str "Q now")
        = ⟨str "Bye!", ⟨[], 0, [], true⟩, []⟩ ∧
      ∃ r, Update plainEnv okClient [] ⟨str "Q now", 5, [], false⟩
          (Msg.Key KeyType.Enter []) = some r ∧
        r.cmd = Cmd.Quit ∧ r.m.quitting = true ∧ r.m.output = str "Bye!" ∧ r.log = [] :=
  ⟨by decide, by decide,
    (Quit_spec plainEnv okClient [] ⟨[], 0, [], false⟩ (str "Q now") (str "Q") [str "now"]
      (by decide) (Or.inr (by decide))).1,
    (Quit_spec plainEnv okClient [] ⟨[], 0, [], false⟩ (str "Q now") (str "Q") [str "now"]
      (by decide) (Or.inr (by decide))).2 5 []⟩


end Jukebox
